import Mathlib

/-!
# Verification of the minesweeper-react board engine

Shallow embedding of the game engine of the repository.  The repository holds
two variants of the engine class `MinesweeperGame`:

* `src/minesweeper-game.ts` — `clearCell` itself performs an iterative flood
  fill with an explicit work list;
* `src/game/minesweeper-game.ts` — `clearCell` exposes a single cell and the
  cascade lives in `clearNeighbors`.

Both variants share the cell/board data model, the constructors, `markCell`,
`gameInfo` and the neighbor computation, so those are embedded once.  The two
different reveal operations are embedded as `clearCell` (the `game/` variant)
and `clearCellFlood` (the top-level variant), and `clearNeighbors` embeds the
chord-clear of the `game/` variant.

The random choice made by `_.sampleSize` is threaded through the operations as
an explicit `sample : List Nat` parameter together with the `validSample`
predicate describing exactly the outcomes `_.sampleSize` can produce.
-/

namespace Minesweeper

/-- `Marker` from both engine files: annotations a player can put on a covered
cell. -/
inductive Marker where
  | Mine : Marker
  | Maybe : Marker
deriving DecidableEq, Repr

/-- `CellState`: a cell is either covered (with an optional marker;
`none` models the `undefined` marker) or exposed (with the `exploded` flag and
the neighbor-mine count computed at exposure time). -/
inductive CellState where
  | covered (marker : Option Marker) : CellState
  | exposed (exploded : Bool) (numMinesNearby : Nat) : CellState
deriving DecidableEq, Repr

/-- `Cell`: ground-truth mine flag plus the visible state. -/
structure Cell where
  hasMine : Bool
  state : CellState
deriving DecidableEq, Repr

/-- The default `Cell()` record: no mine, covered, no marker. -/
def defaultCell : Cell := ⟨false, .covered none⟩

/-- `GameStateFields`: cells in row-major order plus the board dimensions, the
requested mine count and the lazy-allocation flag. -/
structure GameState where
  cells : List Cell
  numRows : Nat
  numColumns : Nat
  numMines : Nat
  minesAllocated : Bool
deriving DecidableEq, Repr

/-- `isExposed` of the source, on the state sum type. -/
def isExposedState : CellState → Bool
  | .covered _ => false
  | .exposed _ _ => true

/-- Row-major index (`getIndex` of the source): `row * numColumns + column`. -/
def GameState.idx (g : GameState) (p : Nat × Nat) : Nat :=
  p.1 * g.numColumns + p.2

/-- Coordinate bounds check of `validateCoord` (coordinates are `Nat`, so the
`row >= 0` parts are automatic). -/
def GameState.inB (g : GameState) (p : Nat × Nat) : Prop :=
  p.1 < g.numRows ∧ p.2 < g.numColumns

instance (g : GameState) (p : Nat × Nat) : Decidable (g.inB p) :=
  inferInstanceAs (Decidable (_ ∧ _))

/-- `cell(row, column)`: fetch the cell at a coordinate.  The source throws on
an out-of-range access; every theorem below restricts to in-bounds coordinates
on well-formed boards, where the default is never consulted. -/
def GameState.cellAt (g : GameState) (p : Nat × Nat) : Cell :=
  g.cells.getD (g.idx p) defaultCell

/-- Well-formedness recorded by every constructor of the class: the cell list
has exactly `numRows * numColumns` entries. -/
def GameState.WF (g : GameState) : Prop :=
  g.cells.length = g.numRows * g.numColumns

/-- `neighborCoords`: the eight compass offsets applied to `(row, column)` and
clipped to the grid, in the fixed source order.  The source maps the offset
list and then filters for bounds; fusing the two into one `filterMap` keeps
the same elements in the same order. -/
def neighborCoords (numRows numColumns : Nat) (r c : Nat) : List (Nat × Nat) :=
  let offsets : List (Int × Int) :=
    [(-1, -1), (-1, 0), (-1, 1), (0, -1), (0, 1), (1, -1), (1, 0), (1, 1)]
  offsets.filterMap (fun o =>
    let nr : Int := (r : Int) + o.1
    let nc : Int := (c : Int) + o.2
    if 0 ≤ nr ∧ nr < (numRows : Int) ∧ 0 ≤ nc ∧ nc < (numColumns : Int) then
      some (nr.toNat, nc.toNat)
    else none)

/-- Neighbor coordinates of a cell of a given board. -/
def GameState.nbrs (g : GameState) (p : Nat × Nat) : List (Nat × Nat) :=
  neighborCoords g.numRows g.numColumns p.1 p.2

/-- The neighbor-mine count computed at exposure time:
`neighborCoords(row, column).filter(([r, c]) => cell(r, c).hasMine).length`. -/
def mineCount (g : GameState) (p : Nat × Nat) : Nat :=
  ((g.nbrs p).filter (fun q => (g.cellAt q).hasMine)).length

/-- The cell value a reveal writes at `p`: `hasMine` is kept and the state
becomes `Exposed{exploded: hasMine, numMinesNearby}`. -/
def exposedVal (g : GameState) (p : Nat × Nat) : Cell :=
  ⟨(g.cellAt p).hasMine, .exposed (g.cellAt p).hasMine (mineCount g p)⟩

/-- Overwrite the state of the cell at `p` (the `setIn(['cells', idx, 'state'],
…)` update). -/
def setCellState (g : GameState) (p : Nat × Nat) (s : CellState) : GameState :=
  { g with cells := g.cells.set (g.idx p) ⟨(g.cellAt p).hasMine, s⟩ }

/-- Constructor variants (a)/(b): `new MinesweeperGame(numRows, numColumns,
numMines?)` — all cells start as `Cell()`, mines not yet allocated. -/
def mkGame (numRows numColumns numMines : Nat) : GameState :=
  ⟨List.replicate (numRows * numColumns) defaultCell,
    numRows, numColumns, numMines, false⟩

/-- Mine count of a cell list (the `reduce` in constructor variant (c)). -/
def countMines (cells : List Cell) : Nat :=
  cells.countP (fun cell => cell.hasMine)

/-- Constructor variant (c): `new MinesweeperGame(numRows, numColumns, cells)`
— fails (`none`) when the list length does not match, otherwise derives
`numMines` by counting and sets `minesAllocated` immediately. -/
def mkGameOfCells (numRows numColumns : Nat) (cs : List Cell) :
    Option GameState :=
  if cs.length = numRows * numColumns then
    some ⟨cs, numRows, numColumns, countMines cs, true⟩
  else none

/-- `potentialMineLocations`:
`_.difference(_.range(numRows*numColumns), noMineIndexes)` where
`noMineIndexes` indexes the target cell and its clipped neighbors. -/
def potentialMineLocations (g : GameState) (r c : Nat) : List Nat :=
  let noMineIndexes :=
    (neighborCoords g.numRows g.numColumns r c ++ [(r, c)]).map (fun p => g.idx p)
  (List.range (g.numRows * g.numColumns)).filter (fun i => ¬ i ∈ noMineIndexes)

/-- Set `hasMine` of every cell from the chosen location set:
`cells.map((cell, i) => cell.set('hasMine', mineLocations.has(i)))`,
with `i` the running index. -/
def allocCells : List Cell → Nat → List Nat → List Cell
  | [], _, _ => []
  | cell :: rest, i, locs =>
      ⟨locs.contains i, cell.state⟩ :: allocCells rest (i + 1) locs

/-- The lazy mine-allocation step of the first `clearCell`: commit the sampled
locations and set `minesAllocated`. -/
def allocateMines (g : GameState) (locs : List Nat) : GameState :=
  { g with cells := allocCells g.cells 0 locs, minesAllocated := true }

/-- The outcomes `_.sampleSize(potentialMineLocations, numMines)` can produce:
a duplicate-free selection from the population whose size is the requested
count clipped to the population size. -/
def validSample (g : GameState) (r c : Nat) (sample : List Nat) : Prop :=
  sample.Nodup ∧
  sample.length = min g.numMines (potentialMineLocations g r c).length ∧
  sample ⊆ potentialMineLocations g r c

/-- `clearCell` of `src/game/minesweeper-game.ts`: no-op on an exposed cell;
on the first reveal allocate mines and re-enter; then expose the single target
cell.  The source re-invokes `clearCell` recursively after allocating; since
allocation changes no cell state, that re-entry runs straight to the exposure
step, which is inlined here.  The leading bounds check models the
`validateCoord` throw. -/
def clearCell (g : GameState) (r c : Nat) (sample : List Nat) : GameState :=
  if ¬ g.inB (r, c) then g
  else if isExposedState (g.cellAt (r, c)).state then g
  else
    let g1 := if g.minesAllocated then g else allocateMines g sample
    setCellState g1 (r, c)
      (.exposed (g1.cellAt (r, c)).hasMine (mineCount g1 (r, c)))

/-! ## The chord-clear loop of `src/game/minesweeper-game.ts` -/

/-- The duplicate test `_.find(cellsToClear, coord)` of `clearNeighbors`.
Lodash's iteratee shorthand turns the two-element array `coord = [r, c]` into
`_.matchesProperty(r, c)`, so an entry `e` of the work list matches when
`e[r] === c`: for `r = 0` that compares the entry's row with `c`, for `r = 1`
the entry's column with `c`, and for `r ≥ 2` it reads `undefined`, which never
equals the number `c`. -/
def lodashFindMatch (st : List (Nat × Nat)) (p : Nat × Nat) : Bool :=
  st.any (fun e =>
    if p.1 = 0 then decide (e.1 = p.2)
    else if p.1 = 1 then decide (e.2 = p.2)
    else false)

/-- One push pass of the `clearNeighbors` loop: walk the neighbors of the
popped cell in order and prepend (stack push) each one that is covered in the
current game and not matched by the `_.find` duplicate test against the work
list as built so far. -/
def pushNbrs (g : GameState) (p : Nat × Nat) (st : List (Nat × Nat)) :
    List (Nat × Nat) :=
  (g.nbrs p).foldl
    (fun st q =>
      if ¬ isExposedState (g.cellAt q).state ∧ ¬ lodashFindMatch st q then
        q :: st
      else st) st

/-- `markCell` error kinds (`validateCoord` throw and the
"Can't mark exposed cell" throw). -/
inductive MsError where
  | outOfBounds : MsError
  | invalidOperation : MsError
deriving DecidableEq, Repr

/-- `markCell(row, column, marker?)`: throws on an out-of-bounds coordinate or
an exposed cell, otherwise replaces the marker of the covered cell (a `none`
marker models `undefined`, clearing it). -/
def markCell (g : GameState) (r c : Nat) (m : Option Marker) :
    Except MsError GameState :=
  if ¬ g.inB (r, c) then .error .outOfBounds
  else if isExposedState (g.cellAt (r, c)).state then .error .invalidOperation
  else .ok (setCellState g (r, c) (.covered m))

/-! ## List helper lemmas used by the loop embeddings -/

theorem getD_set_self {α : Type} (l : List α) (i : Nat) (a d : α)
    (h : i < l.length) : (l.set i a).getD i d = a := by
  induction l generalizing i with
  | nil => simp at h
  | cons x xs ih =>
    cases i with
    | zero => rfl
    | succ j => simpa using ih j (by simpa using h)

theorem getD_set_other {α : Type} (l : List α) (i j : Nat) (a d : α)
    (h : j ≠ i) : (l.set i a).getD j d = l.getD j d := by
  induction l generalizing i j with
  | nil => rfl
  | cons x xs ih =>
    cases i with
    | zero =>
      cases j with
      | zero => exact absurd rfl h
      | succ k => rfl
    | succ i' =>
      cases j with
      | zero => rfl
      | succ k => simpa using ih i' k (by omega)

theorem get?_set_self {α : Type} (l : List α) (i : Nat) (a : α)
    (h : i < l.length) : (l.set i a).get? i = some a := by
  induction l generalizing i with
  | nil => simp at h
  | cons x xs ih =>
    cases i with
    | zero => rfl
    | succ j => simpa using ih j (by simpa using h)

theorem get?_set_other {α : Type} (l : List α) (i j : Nat) (a : α)
    (h : j ≠ i) : (l.set i a).get? j = l.get? j := by
  induction l generalizing i j with
  | nil => rfl
  | cons x xs ih =>
    cases i with
    | zero =>
      cases j with
      | zero => exact absurd rfl h
      | succ k => rfl
    | succ i' =>
      cases j with
      | zero => rfl
      | succ k => simpa using ih i' k (by omega)

theorem set_oob {α : Type} (l : List α) (i : Nat) (a : α)
    (h : l.length ≤ i) : l.set i a = l := by
  induction l generalizing i with
  | nil => rfl
  | cons x xs ih =>
    cases i with
    | zero => simp at h
    | succ j => simpa using ih j (by simpa using h)

theorem get?_none_iff {α : Type} (l : List α) (i : Nat) :
    l.get? i = none ↔ l.length ≤ i := by
  induction l generalizing i with
  | nil => simp
  | cons x xs ih =>
    cases i with
    | zero => simp
    | succ j => simpa using ih j

theorem getD_eq_get? {α : Type} (l : List α) (i : Nat) (d : α) :
    l.getD i d = (l.get? i).getD d := by
  induction l generalizing i with
  | nil => rfl
  | cons x xs ih =>
    cases i with
    | zero => rfl
    | succ j => simpa using ih j

theorem countP_set_flip {α : Type} (l : List α) (i : Nat) (a d : α)
    (p : α → Bool) (h : i < l.length) (h1 : p (l.getD i d) = true)
    (h2 : p a = false) : (l.set i a).countP p + 1 = l.countP p := by
  induction l generalizing i with
  | nil => simp at h
  | cons x xs ih =>
    cases i with
    | zero =>
      simp only [List.getD_cons_zero] at h1
      simp [List.countP_cons, h1, h2]
    | succ j =>
      have hj : j < xs.length := by simpa using h
      have h1' : p (xs.getD j d) = true := by simpa using h1
      have := ih j hj h1'
      show (x :: xs.set j a).countP p + 1 = (x :: xs).countP p
      simp only [List.countP_cons]
      omega

theorem countP_set_same {α : Type} (l : List α) (i : Nat) (a d : α)
    (p : α → Bool) (h : p (l.getD i d) = p a) :
    (l.set i a).countP p = l.countP p := by
  induction l generalizing i with
  | nil => rfl
  | cons x xs ih =>
    cases i with
    | zero =>
      simp only [List.getD_cons_zero] at h
      simp [List.countP_cons, h]
    | succ j =>
      have h' : p (xs.getD j d) = p a := by simpa using h
      have := ih j h'
      show (x :: xs.set j a).countP p = (x :: xs).countP p
      simp only [List.countP_cons]
      omega

/-! ## Allocation-step structure lemmas -/

theorem allocCells_get? (cells : List Cell) (i j : Nat) (locs : List Nat) :
    (allocCells cells i locs).get? j =
      (cells.get? j).map (fun cell => ⟨locs.contains (i + j), cell.state⟩) := by
  induction cells generalizing i j with
  | nil => simp [allocCells]
  | cons x xs ih =>
    cases j with
    | zero => simp [allocCells]
    | succ k =>
      have := ih (i + 1) k
      simpa [allocCells, Nat.add_assoc, Nat.add_comm 1 k] using this

theorem allocCells_length (cells : List Cell) (i : Nat) (locs : List Nat) :
    (allocCells cells i locs).length = cells.length := by
  induction cells generalizing i with
  | nil => rfl
  | cons x xs ih => simpa [allocCells] using ih (i + 1)

theorem allocCells_state (cells : List Cell) (i j : Nat) (locs : List Nat)
    (d : Cell) :
    ((allocCells cells i locs).getD j d).state = (cells.getD j d).state := by
  have h := allocCells_get? cells i j locs
  rw [getD_eq_get?, getD_eq_get?, h]
  cases hc : cells.get? j with
  | none => rfl
  | some cell => rfl

/-! ## The flood-fill work-list loop of `src/minesweeper-game.ts` -/

/-- Whether the cell at flat index `i` of a cell list is exposed (the
`isExposed(neighbor.state)` test the loop performs against the mutated cell
list). -/
def exposedAtL (cells : List Cell) (i : Nat) : Bool :=
  match cells.get? i with
  | some cell => isExposedState cell.state
  | none => false

theorem exposedAtL_eq (cells : List Cell) (i : Nat) :
    exposedAtL cells i = isExposedState (cells.getD i defaultCell).state := by
  unfold exposedAtL
  rw [getD_eq_get?]
  cases hc : cells.get? i with
  | none => rfl
  | some cell => rfl

theorem exposedAtL_set (cells : List Cell) (i j : Nat) (a : Cell)
    (h : isExposedState a.state = exposedAtL cells i) :
    exposedAtL (cells.set i a) j = exposedAtL cells j := by
  by_cases hij : j = i
  · subst hij
    by_cases hlen : j < cells.length
    · rw [exposedAtL_eq, getD_set_self cells j a _ hlen, h]
    · rw [set_oob cells j a (by omega)]
  · rw [exposedAtL_eq, exposedAtL_eq, getD_set_other cells i j a _ hij]

theorem exposedAtL_cellAt (g : GameState) (p : Nat × Nat) :
    exposedAtL g.cells (g.idx p) = isExposedState (g.cellAt p).state := by
  rw [exposedAtL_eq]
  rfl

/-- Number of covered cells: the first component of the termination measure
of the work-list loops. -/
def coveredCount (cells : List Cell) : Nat :=
  cells.countP (fun cell => ! isExposedState cell.state)

/-- Number of work-list entries pointing at an already-exposed cell: the
second component of the termination measure. -/
def exposedEntries (g : GameState) (cells : List Cell)
    (wl : List (Nat × Nat)) : Nat :=
  wl.countP (fun q => exposedAtL cells (g.idx q))

theorem coveredCount_set_of_covered (cells : List Cell) (i : Nat)
    (hlen : i < cells.length) (hexp : exposedAtL cells i = false) (g : GameState)
    (p : Nat × Nat) :
    coveredCount (cells.set i (exposedVal g p)) + 1 = coveredCount cells := by
  unfold coveredCount
  apply countP_set_flip cells i (exposedVal g p) defaultCell _ hlen
  · rw [exposedAtL_eq] at hexp
    show (! isExposedState (cells.getD i defaultCell).state) = true
    rw [hexp]
    rfl
  · rfl

theorem coveredCount_set_of_exposed (cells : List Cell) (i : Nat)
    (hexp : exposedAtL cells i = true) (g : GameState) (p : Nat × Nat) :
    coveredCount (cells.set i (exposedVal g p)) = coveredCount cells := by
  unfold coveredCount
  apply countP_set_same cells i (exposedVal g p) defaultCell
  rw [exposedAtL_eq] at hexp
  show (! isExposedState (cells.getD i defaultCell).state) =
    (! isExposedState (exposedVal g p).state)
  rw [hexp]
  rfl

theorem exposedEntries_cons_exposed (g : GameState) (cells : List Cell)
    (p : Nat × Nat) (rest : List (Nat × Nat))
    (hexp : exposedAtL cells (g.idx p) = true) :
    exposedEntries g cells (p :: rest) = exposedEntries g cells rest + 1 := by
  simp [exposedEntries, List.countP_cons, hexp]

theorem exposedEntries_cons_covered (g : GameState) (cells : List Cell)
    (p : Nat × Nat) (rest : List (Nat × Nat))
    (hexp : exposedAtL cells (g.idx p) = false) :
    exposedEntries g cells (p :: rest) = exposedEntries g cells rest := by
  simp [exposedEntries, List.countP_cons, hexp]

theorem exposedEntries_set_congr (g : GameState) (cells : List Cell)
    (i : Nat) (a : Cell) (h : isExposedState a.state = exposedAtL cells i)
    (wl : List (Nat × Nat)) :
    exposedEntries g (cells.set i a) wl = exposedEntries g cells wl := by
  unfold exposedEntries
  apply List.countP_congr
  intro q _
  simp [exposedAtL_set cells i (g.idx q) a h]

theorem exposedEntries_unexposed_front (g : GameState) (cells : List Cell)
    (pushed rest : List (Nat × Nat))
    (h : ∀ q ∈ pushed, exposedAtL cells (g.idx q) = false) :
    exposedEntries g cells (pushed ++ rest) = exposedEntries g cells rest := by
  unfold exposedEntries
  rw [List.countP_append]
  have : pushed.countP (fun q => exposedAtL cells (g.idx q)) = 0 := by
    rw [List.countP_eq_zero]
    intro q hq
    simp [h q hq]
  omega

/-- The `while (cellsToClear.length > 0)` loop of the flood-filling
`clearCell`.  `g` is the original game (the source reads `this.cell` — the
pre-loop cells — for `hasMine` and for the exposure values), while `cells` is
the mutated list the loop writes into and consults for the "already exposed"
push filter.  The source pops from the array end and appends pushes, which a
head-of-list stack models with the pushed neighbors reversed.  The
`g.inB p ∧ g.idx p < cells.length` guard models the out-of-range throw of
`this.cell`; it never fires on the well-formed boards the class constructs. -/
def floodLoop (g : GameState) (wl : List (Nat × Nat)) (cells : List Cell) :
    List Cell :=
  match wl with
  | [] => cells
  | p :: rest =>
    if hin : g.inB p ∧ g.idx p < cells.length then
      let cells' := cells.set (g.idx p) (exposedVal g p)
      if (g.cellAt p).hasMine = false ∧ mineCount g p = 0 then
        floodLoop g
          (((g.nbrs p).filter
              (fun q => ¬ exposedAtL cells' (g.idx q))).reverse ++ rest)
          cells'
      else
        floodLoop g rest cells'
    else cells
termination_by (coveredCount cells, exposedEntries g cells wl)
decreasing_by
  · by_cases hexp : exposedAtL cells (g.idx p) = true
    · have hcov := coveredCount_set_of_exposed cells (g.idx p) hexp g p
      have hsame : isExposedState (exposedVal g p).state = exposedAtL cells (g.idx p) := by
        rw [hexp]
        rfl
      rw [hcov]
      apply Prod.Lex.right
      rw [exposedEntries_unexposed_front g _ _ rest
            (by
              intro q hq
              rw [List.mem_reverse, List.mem_filter] at hq
              simpa using hq.2),
          exposedEntries_set_congr g cells _ _ hsame,
          exposedEntries_cons_exposed g cells p rest hexp]
      omega
    · have hexp' : exposedAtL cells (g.idx p) = false := by
        simpa using hexp
      have := coveredCount_set_of_covered cells (g.idx p) hin.2 hexp' g p
      apply Prod.Lex.left
      omega
  · by_cases hexp : exposedAtL cells (g.idx p) = true
    · have hcov := coveredCount_set_of_exposed cells (g.idx p) hexp g p
      have hsame : isExposedState (exposedVal g p).state = exposedAtL cells (g.idx p) := by
        rw [hexp]
        rfl
      rw [hcov]
      apply Prod.Lex.right
      rw [exposedEntries_set_congr g cells _ _ hsame,
          exposedEntries_cons_exposed g cells p rest hexp]
      omega
    · have hexp' : exposedAtL cells (g.idx p) = false := by
        simpa using hexp
      have := coveredCount_set_of_covered cells (g.idx p) hin.2 hexp' g p
      apply Prod.Lex.left
      omega

/-- `clearCell` of `src/minesweeper-game.ts`, the flood-filling variant: no-op
on an exposed cell, lazy allocation on the first reveal, then the iterative
work-list flood fill starting from the target.  As in `clearCell`, the source's
recursive re-entry after allocation is inlined (allocation changes no cell
state, so the re-entered call runs straight to the loop), and the leading
bounds check models the `validateCoords` throw. -/
def clearCellFlood (g : GameState) (r c : Nat) (sample : List Nat) :
    GameState :=
  if ¬ g.inB (r, c) then g
  else if isExposedState (g.cellAt (r, c)).state then g
  else
    let g1 := if g.minesAllocated then g else allocateMines g sample
    { g1 with cells := floodLoop g1 [(r, c)] g1.cells }

/-! ## Structure lemmas for the single-cell `clearCell` -/

theorem exposedAtL_allocCells (cells : List Cell) (i j : Nat)
    (locs : List Nat) :
    exposedAtL (allocCells cells i locs) j = exposedAtL cells j := by
  unfold exposedAtL
  rw [allocCells_get? cells i j locs]
  cases cells.get? j with
  | none => rfl
  | some cell => rfl

theorem coveredCount_allocCells (cells : List Cell) (i : Nat)
    (locs : List Nat) :
    coveredCount (allocCells cells i locs) = coveredCount cells := by
  induction cells generalizing i with
  | nil => rfl
  | cons x xs ih =>
    unfold coveredCount at *
    simp [allocCells, List.countP_cons, ih (i + 1)]

theorem clearCell_numRows (g : GameState) (r c : Nat) (s : List Nat) :
    (clearCell g r c s).numRows = g.numRows := by
  unfold clearCell
  split
  · rfl
  · split
    · rfl
    · split <;> rfl

theorem clearCell_numColumns (g : GameState) (r c : Nat) (s : List Nat) :
    (clearCell g r c s).numColumns = g.numColumns := by
  unfold clearCell
  split
  · rfl
  · split
    · rfl
    · split <;> rfl

theorem clearCell_numMines (g : GameState) (r c : Nat) (s : List Nat) :
    (clearCell g r c s).numMines = g.numMines := by
  unfold clearCell
  split
  · rfl
  · split
    · rfl
    · split <;> rfl

theorem clearCell_of_oob (g : GameState) (r c : Nat) (s : List Nat)
    (h : ¬ g.inB (r, c)) : clearCell g r c s = g := by
  unfold clearCell
  rw [if_pos h]

theorem clearCell_of_exposed (g : GameState) (r c : Nat) (s : List Nat)
    (h : isExposedState (g.cellAt (r, c)).state = true) :
    clearCell g r c s = g := by
  by_cases hb : g.inB (r, c)
  · unfold clearCell
    rw [if_neg (not_not_intro hb), if_pos h]
  · exact clearCell_of_oob g r c s hb

/-- On an in-bounds covered target, `clearCell` is the exposure step applied
to the (possibly freshly allocated) board. -/
theorem clearCell_eq_of_covered (g : GameState) (r c : Nat) (s : List Nat)
    (hb : g.inB (r, c))
    (hcov : isExposedState (g.cellAt (r, c)).state = false) :
    clearCell g r c s =
      setCellState (if g.minesAllocated then g else allocateMines g s) (r, c)
        (.exposed
          ((if g.minesAllocated then g
            else allocateMines g s).cellAt (r, c)).hasMine
          (mineCount (if g.minesAllocated then g else allocateMines g s)
            (r, c))) := by
  unfold clearCell
  rw [if_neg (not_not_intro hb), if_neg (by simp [hcov])]

/-- The exposure pattern, the covered count, the cell-list length and the
index map of the pre-allocation board agree with the allocated board. -/
theorem allocBranch_facts (g : GameState) (s : List Nat) :
    (∀ j, exposedAtL (if g.minesAllocated then g
        else allocateMines g s).cells j = exposedAtL g.cells j) ∧
    coveredCount (if g.minesAllocated then g
        else allocateMines g s).cells = coveredCount g.cells ∧
    (if g.minesAllocated then g else allocateMines g s).cells.length
        = g.cells.length ∧
    (∀ p, (if g.minesAllocated then g
        else allocateMines g s).idx p = g.idx p) := by
  split
  · exact ⟨fun _ => rfl, rfl, rfl, fun _ => rfl⟩
  · exact ⟨fun j => exposedAtL_allocCells g.cells 0 j s,
      coveredCount_allocCells g.cells 0 s,
      allocCells_length g.cells 0 s, fun _ => rfl⟩

/-- When `clearCell` turns the covered target into an exposed cell, the
covered count drops by exactly one. -/
theorem clearCell_cov_decrease (g : GameState) (r c : Nat) (s : List Nat)
    (hcov : isExposedState (g.cellAt (r, c)).state = false)
    (hexp : isExposedState ((clearCell g r c s).cellAt (r, c)).state = true) :
    coveredCount (clearCell g r c s).cells + 1 = coveredCount g.cells := by
  by_cases hb : g.inB (r, c)
  case neg =>
    rw [clearCell_of_oob g r c s hb] at hexp
    rw [hcov] at hexp
    cases hexp
  case pos =>
    rw [clearCell_eq_of_covered g r c s hb hcov] at hexp ⊢
    set G := (if g.minesAllocated then g else allocateMines g s) with hG
    obtain ⟨hpat, hcnt, hlen, hidx⟩ := allocBranch_facts g s
    rw [← hG] at hpat hcnt hlen hidx
    by_cases hl : G.idx (r, c) < G.cells.length
    · show coveredCount (G.cells.set (G.idx (r, c)) _) + 1 = coveredCount g.cells
      rw [← hcnt]
      unfold coveredCount
      apply countP_set_flip G.cells (G.idx (r, c)) _ defaultCell _ hl
      · have hc1 : exposedAtL G.cells (G.idx (r, c)) = false := by
          rw [hpat, hidx, exposedAtL_eq]
          exact hcov
        rw [exposedAtL_eq] at hc1
        show (! isExposedState (G.cells.getD (G.idx (r, c)) defaultCell).state)
          = true
        rw [hc1]
        rfl
      · rfl
    · exfalso
      have hoob : isExposedState ((setCellState G (r, c)
          (.exposed (G.cellAt (r, c)).hasMine (mineCount G (r, c)))).cellAt
            (r, c)).state = false := by
        show isExposedState ((G.cells.set (G.idx (r, c)) _).getD
          (G.idx (r, c)) defaultCell).state = false
        rw [set_oob _ _ _ (by omega), getD_eq_get?,
          (get?_none_iff _ _).mpr (by omega)]
        rfl
      rw [hoob] at hexp
      cases hexp

/-- When `clearCell` leaves the target unexposed (only possible through the
out-of-range paths that model the source's throws), the covered count and the
exposure pattern are both unchanged. -/
theorem clearCell_stuck (g : GameState) (r c : Nat) (s : List Nat)
    (hexp : isExposedState ((clearCell g r c s).cellAt (r, c)).state = false) :
    coveredCount (clearCell g r c s).cells = coveredCount g.cells ∧
    (∀ j, exposedAtL (clearCell g r c s).cells j = exposedAtL g.cells j) := by
  by_cases hb : g.inB (r, c)
  case neg =>
    rw [clearCell_of_oob g r c s hb]
    exact ⟨rfl, fun _ => rfl⟩
  case pos =>
    by_cases hcov : isExposedState (g.cellAt (r, c)).state = true
    case pos =>
      rw [clearCell_of_exposed g r c s hcov]
      exact ⟨rfl, fun _ => rfl⟩
    case neg =>
      have hcov' : isExposedState (g.cellAt (r, c)).state = false := by
        simpa using hcov
      rw [clearCell_eq_of_covered g r c s hb hcov'] at hexp ⊢
      set G := (if g.minesAllocated then g else allocateMines g s) with hG
      obtain ⟨hpat, hcnt, hlen, hidx⟩ := allocBranch_facts g s
      rw [← hG] at hpat hcnt hlen hidx
      by_cases hl : G.idx (r, c) < G.cells.length
      · exfalso
        have hset : isExposedState ((setCellState G (r, c)
            (.exposed (G.cellAt (r, c)).hasMine (mineCount G (r, c)))).cellAt
              (r, c)).state = true := by
          show isExposedState ((G.cells.set (G.idx (r, c)) _).getD
            (G.idx (r, c)) defaultCell).state = true
          rw [getD_set_self _ _ _ _ hl]
          rfl
        rw [hset] at hexp
        cases hexp
      · constructor
        · show coveredCount (G.cells.set (G.idx (r, c)) _) = coveredCount g.cells
          rw [set_oob _ _ _ (by omega)]
          exact hcnt
        · intro j
          show exposedAtL (G.cells.set (G.idx (r, c)) _) j = exposedAtL g.cells j
          rw [set_oob _ _ _ (by omega)]
          exact hpat j

theorem countP_pushNbrs (g : GameState) (p : Nat × Nat)
    (st : List (Nat × Nat)) (pred : Nat × Nat → Bool)
    (h : ∀ q, isExposedState (g.cellAt q).state = false → pred q = false) :
    (pushNbrs g p st).countP pred = st.countP pred := by
  unfold pushNbrs
  generalize g.nbrs p = l
  induction l generalizing st with
  | nil => rfl
  | cons q l ih =>
    show (List.foldl _ (if _ then q :: st else st) l).countP pred = _
    split
    · rename_i hq
      rw [ih (q :: st)]
      have hpq : pred q = false := by
        apply h
        have := hq.1
        simpa using this
      simp [List.countP_cons, hpq]
    · exact ih st

/-- The `while` loop of `clearNeighbors`.  Each iteration pops the stack top,
calls `clearCell` on it, and — when the cell now shows as exposed,
non-exploded, with a zero neighbor count — pushes its covered neighbors
through the (lodash-shorthand) duplicate filter.  A popped coordinate whose
cell still shows covered only happens on the out-of-bounds paths modelling
the source's throws; the loop then just continues with the rest. -/
def cnLoop (g : GameState) (wl : List (Nat × Nat)) (sample : List Nat) :
    GameState :=
  match wl with
  | [] => g
  | p :: rest =>
    let g' := clearCell g p.1 p.2 sample
    match hst : (g'.cellAt p).state with
    | .covered _ => cnLoop g' rest sample
    | .exposed exploded nmn =>
      if exploded = false ∧ nmn = 0 then
        cnLoop g' (pushNbrs g' p rest) sample
      else cnLoop g' rest sample
termination_by (coveredCount g.cells, exposedEntries g g.cells wl, wl.length)
decreasing_by
  · -- covered after clearCell: only the out-of-range paths; list gets shorter
    have hpost : isExposedState ((clearCell g p.1 p.2 sample).cellAt
        (p.1, p.2)).state = false := by
      rw [show ((p.1, p.2) : Nat × Nat) = p from rfl, hst]
      rfl
    obtain ⟨hcnt, hpat⟩ := clearCell_stuck g p.1 p.2 sample hpost
    have hidx : ∀ q, (clearCell g p.1 p.2 sample).idx q = g.idx q := by
      intro q
      unfold GameState.idx
      rw [clearCell_numColumns]
    have hEE : exposedEntries (clearCell g p.1 p.2 sample)
        (clearCell g p.1 p.2 sample).cells rest = exposedEntries g g.cells rest := by
      unfold exposedEntries
      apply List.countP_congr
      intro q _
      rw [hidx q, hpat (g.idx q)]
    have hpre : exposedAtL g.cells (g.idx p) = false := by
      rw [← hpat (g.idx p), ← hidx p, exposedAtL_cellAt]
      exact hpost
    rw [hcnt, hEE, exposedEntries_cons_covered g g.cells p rest hpre]
    exact Prod.Lex.right _ (Prod.Lex.right _
      (by rw [List.length_cons]; omega))
  · -- exposed with zero count: push branch
    by_cases hexpPre : exposedAtL g.cells (g.idx p) = true
    · have hg' : clearCell g p.1 p.2 sample = g := by
        apply clearCell_of_exposed
        rw [← exposedAtL_cellAt]
        exact hexpPre
      rw [hg']
      have hEE : exposedEntries g g.cells (pushNbrs g p rest) =
          exposedEntries g g.cells rest := by
        unfold exposedEntries
        apply countP_pushNbrs
        intro q hq
        rw [exposedAtL_cellAt]
        exact hq
      rw [hEE, exposedEntries_cons_exposed g g.cells p rest hexpPre]
      exact Prod.Lex.right _ (Prod.Lex.left _ _ (by omega))
    · have hcovPre : isExposedState (g.cellAt (p.1, p.2)).state = false := by
        rw [show ((p.1, p.2) : Nat × Nat) = p from rfl, ← exposedAtL_cellAt]
        simpa using hexpPre
      have hpost : isExposedState ((clearCell g p.1 p.2 sample).cellAt
          (p.1, p.2)).state = true := by
        rw [show ((p.1, p.2) : Nat × Nat) = p from rfl, hst]
        rfl
      have := clearCell_cov_decrease g p.1 p.2 sample hcovPre hpost
      exact Prod.Lex.left _ _ (by omega)
  · -- exposed, exploded or non-zero count: continue with the rest
    by_cases hexpPre : exposedAtL g.cells (g.idx p) = true
    · have hg' : clearCell g p.1 p.2 sample = g := by
        apply clearCell_of_exposed
        rw [← exposedAtL_cellAt]
        exact hexpPre
      rw [hg', exposedEntries_cons_exposed g g.cells p rest hexpPre]
      exact Prod.Lex.right _ (Prod.Lex.left _ _ (by omega))
    · have hcovPre : isExposedState (g.cellAt (p.1, p.2)).state = false := by
        rw [show ((p.1, p.2) : Nat × Nat) = p from rfl, ← exposedAtL_cellAt]
        simpa using hexpPre
      have hpost : isExposedState ((clearCell g p.1 p.2 sample).cellAt
          (p.1, p.2)).state = true := by
        rw [show ((p.1, p.2) : Nat × Nat) = p from rfl, hst]
        rfl
      have := clearCell_cov_decrease g p.1 p.2 sample hcovPre hpost
      exact Prod.Lex.left _ _ (by omega)

/-- `clearNeighbors` of `src/game/minesweeper-game.ts` (chord clear): no-op
unless the target is exposed, non-exploded, and the number of covered
neighbors marked as mines equals its recorded neighbor count; otherwise clear
every covered, non-mine-marked neighbor through the work-list loop (initial
stack in array order, popped from the end, hence reversed here).  The leading
bounds check models the `validateCoord` throw of `this.cell`. -/
def clearNeighbors (g : GameState) (r c : Nat) (sample : List Nat) :
    GameState :=
  if ¬ g.inB (r, c) then g
  else
    match (g.cellAt (r, c)).state with
    | .covered _ => g
    | .exposed exploded nmn =>
      if exploded then g
      else
        if ((g.nbrs (r, c)).filter
            (fun q => (g.cellAt q).state = CellState.covered (some .Mine))).length
            ≠ nmn then g
        else
          cnLoop g
            (((g.nbrs (r, c)).filter (fun q =>
              ¬ isExposedState (g.cellAt q).state ∧
                ¬ ((g.cellAt q).state = CellState.covered (some .Mine)))).reverse)
            sample

/-- `GameInfo`: the derived counters. -/
structure GameInfo where
  numMines : Nat
  numMarkedMines : Nat
  numExploded : Nat
deriving DecidableEq, Repr

/-- Whether a cell counts into `numMarkedMines`: exposed cells count when
exploded, covered cells when marked as a mine. -/
def hasMarkedMine (cell : Cell) : Bool :=
  match cell.state with
  | .exposed exploded _ => exploded
  | .covered marker => marker = some .Mine

/-- Whether a cell counts into `numExploded`. -/
def isExplodedCell (cell : Cell) : Bool :=
  match cell.state with
  | .exposed exploded _ => exploded
  | .covered _ => false

/-- `get gameInfo`: one `reduce` pass accumulating both counters, then the
stored `numMines` is attached. -/
def gameInfo (g : GameState) : GameInfo :=
  let info := g.cells.foldl
    (fun (info : Nat × Nat) cell =>
      (info.1 + (if hasMarkedMine cell then 1 else 0),
       info.2 + (if isExplodedCell cell then 1 else 0)))
    (0, 0)
  ⟨g.numMines, info.1, info.2⟩

/-! ## Flood-fill reachability

`Reach g s q` is the closure the cascade of the flood-filling `clearCell`
computes: the start cell itself, plus everything reachable through chains of
covered, mine-free, zero-neighbor-count cells, each link stepping to a covered
neighbor.  Border cells with a positive count are in the closure (they get
exposed) but do not extend it. -/

inductive Reach (g : GameState) (s : Nat × Nat) : (Nat × Nat) → Prop where
  | base : Reach g s s
  | step (p q : Nat × Nat) : Reach g s p →
      isExposedState (g.cellAt p).state = false →
      (g.cellAt p).hasMine = false →
      mineCount g p = 0 →
      q ∈ g.nbrs p →
      isExposedState (g.cellAt q).state = false →
      Reach g s q

theorem reach_trans (g : GameState) (a b x : Nat × Nat)
    (hab : Reach g a b) (hbx : Reach g b x) : Reach g a x := by
  induction hbx with
  | base => exact hab
  | step p q hp hcov hmine hcnt hq hqcov ih =>
    exact Reach.step p q ih hcov hmine hcnt hq hqcov

theorem reach_start_cases (g : GameState) (s x : Nat × Nat)
    (h : Reach g s x) :
    x = s ∨ (isExposedState (g.cellAt s).state = false ∧
      (g.cellAt s).hasMine = false ∧ mineCount g s = 0) := by
  induction h with
  | base => exact Or.inl rfl
  | step p q hp hcov hmine hcnt hq hqcov ih =>
    rcases ih with h1 | h2
    · subst h1
      exact Or.inr ⟨hcov, hmine, hcnt⟩
    · exact Or.inr h2

/-! ## Coordinate/index lemmas -/

theorem nbrs_inB (g : GameState) (p q : Nat × Nat) (h : q ∈ g.nbrs p) :
    g.inB q := by
  unfold GameState.nbrs neighborCoords at h
  simp only [List.mem_filterMap] at h
  obtain ⟨o, _, ho⟩ := h
  split at ho
  · rename_i hcond
    cases ho
    refine ⟨?_, ?_⟩
    · have h1 := hcond.2.1
      have h0 := hcond.1
      omega
    · have h1 := hcond.2.2.2
      have h0 := hcond.2.2.1
      omega
  · cases ho

theorem idx_inj (g : GameState) (p q : Nat × Nat) (hp : g.inB p)
    (hq : g.inB q) (h : g.idx p = g.idx q) : p = q := by
  unfold GameState.idx at h
  obtain ⟨hp1, hp2⟩ := hp
  obtain ⟨hq1, hq2⟩ := hq
  have hdiv : p.1 = q.1 := by
    have e1 : (p.1 * g.numColumns + p.2) / g.numColumns = p.1 := by
      rw [Nat.add_comm, Nat.add_mul_div_right _ _ (by omega : 0 < g.numColumns),
        Nat.div_eq_of_lt hp2]
      omega
    have e2 : (q.1 * g.numColumns + q.2) / g.numColumns = q.1 := by
      rw [Nat.add_comm, Nat.add_mul_div_right _ _ (by omega : 0 < g.numColumns),
        Nat.div_eq_of_lt hq2]
      omega
    rw [← e1, ← e2, h]
  have hmod : p.2 = q.2 := by
    have e1 : (p.1 * g.numColumns + p.2) % g.numColumns = p.2 := by
      rw [Nat.add_comm, Nat.add_mul_mod_self_right]
      exact Nat.mod_eq_of_lt hp2
    have e2 : (q.1 * g.numColumns + q.2) % g.numColumns = q.2 := by
      rw [Nat.add_comm, Nat.add_mul_mod_self_right]
      exact Nat.mod_eq_of_lt hq2
    rw [← e1, ← e2, h]
  exact Prod.ext hdiv hmod

theorem idx_lt (g : GameState) (p : Nat × Nat) (hwf : g.WF) (hp : g.inB p) :
    g.idx p < g.cells.length := by
  unfold GameState.WF at hwf
  unfold GameState.idx
  rw [hwf]
  obtain ⟨h1, h2⟩ := hp
  calc p.1 * g.numColumns + p.2 < (p.1 + 1) * g.numColumns := by
        rw [Nat.succ_mul]
        omega
    _ ≤ g.numRows * g.numColumns := Nat.mul_le_mul_right _ (by omega)

/-! ## The flood-fill loop invariant and characterization -/

/-- The cell of the mutated list at a board coordinate. -/
def cellIn (g : GameState) (cells : List Cell) (p : Nat × Nat) : Cell :=
  cells.getD (g.idx p) defaultCell

/-- "Changed": the coordinate was covered in the original board and the
mutated list now holds the exposure value the loop writes. -/
def Chg (g : GameState) (cells : List Cell) (p : Nat × Nat) : Prop :=
  isExposedState (g.cellAt p).state = false ∧ cellIn g cells p = exposedVal g p

/-- Invariant carried through `floodLoop`: the board is well-formed, the
mutated list differs from the original only by correctly exposed previously
covered cells, the work list holds in-bounds covered coordinates, and every
changed mine-free zero-count cell has each covered neighbor either changed
already or pending on the work list. -/
structure LoopInv (g : GameState) (wl : List (Nat × Nat))
    (cells : List Cell) : Prop where
  wf : g.WF
  len : cells.length = g.cells.length
  cellsB : ∀ p, g.inB p → cellIn g cells p = g.cellAt p ∨ Chg g cells p
  wlB : ∀ p ∈ wl, g.inB p ∧ isExposedState (g.cellAt p).state = false
  frontier : ∀ p, g.inB p → Chg g cells p → (g.cellAt p).hasMine = false →
    mineCount g p = 0 → ∀ q ∈ g.nbrs p,
      isExposedState (g.cellAt q).state = false → Chg g cells q ∨ q ∈ wl

theorem reach_inB (g : GameState) (s x : Nat × Nat) (h : Reach g s x) :
    x = s ∨ g.inB x := by
  induction h with
  | base => exact Or.inl rfl
  | step p q hp hcov hmine hcnt hq hqcov ih => exact Or.inr (nbrs_inB g p q hq)

theorem exposedAtL_cellIn (g : GameState) (cells : List Cell) (x : Nat × Nat) :
    exposedAtL cells (g.idx x) = isExposedState (cellIn g cells x).state := by
  rw [exposedAtL_eq]
  rfl

theorem cellIn_set_other (g : GameState) (cells : List Cell) (a : Cell)
    (p x : Nat × Nat) (hne : g.idx x ≠ g.idx p) :
    cellIn g (cells.set (g.idx p) a) x = cellIn g cells x := by
  unfold cellIn
  exact getD_set_other cells (g.idx p) (g.idx x) a defaultCell hne

theorem Chg_set_self (g : GameState) (cells : List Cell) (p : Nat × Nat)
    (hlen : g.idx p < cells.length)
    (hcov : isExposedState (g.cellAt p).state = false) :
    Chg g (cells.set (g.idx p) (exposedVal g p)) p := by
  refine ⟨hcov, ?_⟩
  unfold cellIn
  exact getD_set_self cells (g.idx p) (exposedVal g p) defaultCell hlen

theorem Chg_set_iff (g : GameState) (cells : List Cell) (p x : Nat × Nat)
    (hp : g.inB p) (hx : g.inB x) (hlen : g.idx p < cells.length)
    (hcov : isExposedState (g.cellAt p).state = false) :
    Chg g (cells.set (g.idx p) (exposedVal g p)) x ↔ Chg g cells x ∨ x = p := by
  by_cases hxp : x = p
  · subst hxp
    exact ⟨fun _ => Or.inr rfl, fun _ => Chg_set_self g cells x hlen hcov⟩
  · have hne : g.idx x ≠ g.idx p := by
      intro h
      exact hxp (idx_inj g x p hx hp h)
    unfold Chg
    rw [cellIn_set_other g cells (exposedVal g p) p x hne]
    constructor
    · exact fun h => Or.inl h
    · rintro (h | h)
      · exact h
      · exact absurd h hxp

/-! ### Unfolding equations of `floodLoop` -/

theorem floodLoop_nil (g : GameState) (cells : List Cell) :
    floodLoop g [] cells = cells := by
  unfold floodLoop
  rfl

theorem floodLoop_cons_zero (g : GameState) (p : Nat × Nat)
    (rest : List (Nat × Nat)) (cells : List Cell)
    (hin : g.inB p ∧ g.idx p < cells.length)
    (hz : (g.cellAt p).hasMine = false ∧ mineCount g p = 0) :
    floodLoop g (p :: rest) cells =
      floodLoop g
        (((g.nbrs p).filter (fun q =>
          ¬ exposedAtL (cells.set (g.idx p) (exposedVal g p)) (g.idx q))).reverse
          ++ rest)
        (cells.set (g.idx p) (exposedVal g p)) := by
  conv_lhs => unfold floodLoop
  rw [dif_pos hin, if_pos hz]

theorem floodLoop_cons_nonzero (g : GameState) (p : Nat × Nat)
    (rest : List (Nat × Nat)) (cells : List Cell)
    (hin : g.inB p ∧ g.idx p < cells.length)
    (hnz : ¬ ((g.cellAt p).hasMine = false ∧ mineCount g p = 0)) :
    floodLoop g (p :: rest) cells =
      floodLoop g rest (cells.set (g.idx p) (exposedVal g p)) := by
  conv_lhs => unfold floodLoop
  rw [dif_pos hin, if_neg hnz]

/-- Characterization of the flood-fill work list loop: under the loop
invariant, the final cell list still differs from the original board only by
correctly exposed previously covered cells, and a cell ends up changed exactly
when it was already changed or is reachable (in the `Reach` sense) from some
work-list entry. -/
theorem floodLoop_main (g : GameState) (wl : List (Nat × Nat))
    (cells : List Cell) :
    LoopInv g wl cells →
    (floodLoop g wl cells).length = g.cells.length ∧
    (∀ x, g.inB x → cellIn g (floodLoop g wl cells) x = g.cellAt x ∨
        Chg g (floodLoop g wl cells) x) ∧
    (∀ x, g.inB x →
        (Chg g (floodLoop g wl cells) x ↔
          Chg g cells x ∨ ∃ s, s ∈ wl ∧ Reach g s x)) := by
  induction wl, cells using floodLoop.induct g with
  | case1 cells =>
    intro inv
    rw [floodLoop_nil]
    refine ⟨inv.len, inv.cellsB, ?_⟩
    intro x hx
    constructor
    · exact fun h => Or.inl h
    · rintro (h | ⟨s, hs, _⟩)
      · exact h
      · exact absurd hs (List.not_mem_nil s)
  | case2 cells p rest hin cells' hz ih =>
    intro inv
    have hmemp : p ∈ p :: rest := List.mem_cons_self p rest
    have hinB : g.inB p := (inv.wlB p hmemp).1
    have hcovP : isExposedState (g.cellAt p).state = false := (inv.wlB p hmemp).2
    rw [floodLoop_cons_zero g p rest cells hin hz]
    have hchg' : ∀ x, g.inB x →
        (Chg g (cells.set (g.idx p) (exposedVal g p)) x ↔
          Chg g cells x ∨ x = p) :=
      fun x hx => Chg_set_iff g cells p x hinB hx hin.2 hcovP
    have hcellsB' : ∀ x, g.inB x →
        cellIn g (cells.set (g.idx p) (exposedVal g p)) x = g.cellAt x ∨
          Chg g (cells.set (g.idx p) (exposedVal g p)) x := by
      intro x hx
      by_cases hxp : x = p
      · subst hxp
        exact Or.inr (Chg_set_self g cells x hin.2 hcovP)
      · have hne : g.idx x ≠ g.idx p := fun h => hxp (idx_inj g x p hx hinB h)
        rw [show cellIn g (cells.set (g.idx p) (exposedVal g p)) x
            = cellIn g cells x from
          cellIn_set_other g cells (exposedVal g p) p x hne]
        rcases inv.cellsB x hx with h | h
        · exact Or.inl h
        · exact Or.inr ((hchg' x hx).mpr (Or.inl h))
    -- facts about pushed coordinates
    have hpush : ∀ q, q ∈ ((g.nbrs p).filter (fun q =>
        ¬ exposedAtL (cells.set (g.idx p) (exposedVal g p)) (g.idx q))).reverse →
        q ∈ g.nbrs p ∧ g.inB q ∧ isExposedState (g.cellAt q).state = false ∧
          ¬ Chg g (cells.set (g.idx p) (exposedVal g p)) q := by
      intro q hq
      rw [List.mem_reverse, List.mem_filter] at hq
      have hqn : q ∈ g.nbrs p := hq.1
      have hqB : g.inB q := nbrs_inB g p q hqn
      have hunexp : exposedAtL (cells.set (g.idx p) (exposedVal g p)) (g.idx q)
          = false := by
        have := hq.2
        simpa using this
      rw [exposedAtL_cellIn] at hunexp
      rcases hcellsB' q hqB with h | h
      · refine ⟨hqn, hqB, ?_, ?_⟩
        · rw [← h]
          exact hunexp
        · intro hc
          rw [hc.2] at hunexp
          exact absurd hunexp (by simp [exposedVal, isExposedState])
      · exfalso
        rw [h.2] at hunexp
        exact absurd hunexp (by simp [exposedVal, isExposedState])
    have hfront' : ∀ y, g.inB y →
        Chg g (cells.set (g.idx p) (exposedVal g p)) y →
        (g.cellAt y).hasMine = false → mineCount g y = 0 →
        ∀ q ∈ g.nbrs y, isExposedState (g.cellAt q).state = false →
          Chg g (cells.set (g.idx p) (exposedVal g p)) q ∨
            q ∈ ((g.nbrs p).filter (fun q =>
              ¬ exposedAtL (cells.set (g.idx p) (exposedVal g p))
                (g.idx q))).reverse ++ rest := by
      intro y hy hcy hmine hcnt q hqn hqcov
      by_cases hcq : Chg g (cells.set (g.idx p) (exposedVal g p)) q
      · exact Or.inl hcq
      · rcases (hchg' y hy).mp hcy with hold | hyp
        · rcases inv.frontier y hy hold hmine hcnt q hqn hqcov with h | h
          · exact Or.inl ((hchg' q (nbrs_inB g y q hqn)).mpr (Or.inl h))
          · rcases List.mem_cons.mp h with rfl | hr
            · exact Or.inl (Chg_set_self g cells q hin.2 hcovP)
            · exact Or.inr (List.mem_append.mpr (Or.inr hr))
        · subst hyp
          refine Or.inr (List.mem_append.mpr (Or.inl ?_))
          rw [List.mem_reverse, List.mem_filter]
          refine ⟨hqn, ?_⟩
          have hfq : exposedAtL (cells.set (g.idx y) (exposedVal g y)) (g.idx q)
              = false := by
            rw [exposedAtL_cellIn]
            rcases hcellsB' q (nbrs_inB g y q hqn) with h | h
            · rw [h]
              exact hqcov
            · exact absurd h hcq
          simp [hfq]
    have inv' : LoopInv g
        (((g.nbrs p).filter (fun q =>
          ¬ exposedAtL (cells.set (g.idx p) (exposedVal g p)) (g.idx q))).reverse
          ++ rest)
        (cells.set (g.idx p) (exposedVal g p)) := by
      refine ⟨inv.wf, ?_, hcellsB', ?_, hfront'⟩
      · rw [List.length_set]
        exact inv.len
      · intro x hx
        rcases List.mem_append.mp hx with h | h
        · obtain ⟨_, hB, hcov, _⟩ := hpush x h
          exact ⟨hB, hcov⟩
        · exact inv.wlB x (List.mem_cons_of_mem p h)
    obtain ⟨L, B, E⟩ := ih inv'
    refine ⟨L, B, ?_⟩
    intro x hx
    refine Iff.trans (E x hx) ?_
    constructor
    · rintro (hc | ⟨s, hs, hr⟩)
      · rcases (hchg' x hx).mp hc with h | h
        · exact Or.inl h
        · exact Or.inr ⟨p, hmemp, h ▸ Reach.base⟩
      · rcases List.mem_append.mp hs with hps | hrs
        · obtain ⟨hsn, hsB, hscov, _⟩ := hpush s hps
          have hps' : Reach g p s :=
            Reach.step p s Reach.base hcovP hz.1 hz.2 hsn hscov
          exact Or.inr ⟨p, hmemp, reach_trans g p s x hps' hr⟩
        · exact Or.inr ⟨s, List.mem_cons_of_mem p hrs, hr⟩
    · rintro (hc | ⟨s, hs, hr⟩)
      · exact Or.inl ((hchg' x hx).mpr (Or.inl hc))
      · rcases List.mem_cons.mp hs with hsp | hsr
        · -- walk the reachability chain from the popped cell
          rw [hsp] at hr
          have walk : ∀ z, Reach g p z →
              Chg g (cells.set (g.idx p) (exposedVal g p)) z ∨
                ∃ s', s' ∈ ((g.nbrs p).filter (fun q =>
                  ¬ exposedAtL (cells.set (g.idx p) (exposedVal g p))
                    (g.idx q))).reverse ++ rest ∧ Reach g s' z := by
            intro z hz'
            induction hz' with
            | base => exact Or.inl (Chg_set_self g cells p hin.2 hcovP)
            | step y q hy hycov hymine hycnt hqn hqcov ihy =>
              have hyB : g.inB y := by
                rcases reach_inB g p y hy with h | h
                · rw [h]
                  exact hinB
                · exact h
              rcases ihy with hcy | ⟨s', hs', hr'⟩
              · rcases hfront' y hyB hcy hymine hycnt q hqn hqcov with h | h
                · exact Or.inl h
                · exact Or.inr ⟨q, h, Reach.base⟩
              · exact Or.inr ⟨s', hs',
                  Reach.step y q hr' hycov hymine hycnt hqn hqcov⟩
          rcases walk x hr with h | ⟨s', hs', hr'⟩
          · exact Or.inl h
          · exact Or.inr ⟨s', hs', hr'⟩
        · exact Or.inr ⟨s, List.mem_append.mpr (Or.inr hsr), hr⟩
  | case3 cells p rest hin cells' hnz ih =>
    intro inv
    have hmemp : p ∈ p :: rest := List.mem_cons_self p rest
    have hinB : g.inB p := (inv.wlB p hmemp).1
    have hcovP : isExposedState (g.cellAt p).state = false := (inv.wlB p hmemp).2
    rw [floodLoop_cons_nonzero g p rest cells hin hnz]
    have hchg' : ∀ x, g.inB x →
        (Chg g (cells.set (g.idx p) (exposedVal g p)) x ↔
          Chg g cells x ∨ x = p) :=
      fun x hx => Chg_set_iff g cells p x hinB hx hin.2 hcovP
    have hcellsB' : ∀ x, g.inB x →
        cellIn g (cells.set (g.idx p) (exposedVal g p)) x = g.cellAt x ∨
          Chg g (cells.set (g.idx p) (exposedVal g p)) x := by
      intro x hx
      by_cases hxp : x = p
      · subst hxp
        exact Or.inr (Chg_set_self g cells x hin.2 hcovP)
      · have hne : g.idx x ≠ g.idx p := fun h => hxp (idx_inj g x p hx hinB h)
        rw [show cellIn g (cells.set (g.idx p) (exposedVal g p)) x
            = cellIn g cells x from
          cellIn_set_other g cells (exposedVal g p) p x hne]
        rcases inv.cellsB x hx with h | h
        · exact Or.inl h
        · exact Or.inr ((hchg' x hx).mpr (Or.inl h))
    have hfront' : ∀ y, g.inB y →
        Chg g (cells.set (g.idx p) (exposedVal g p)) y →
        (g.cellAt y).hasMine = false → mineCount g y = 0 →
        ∀ q ∈ g.nbrs y, isExposedState (g.cellAt q).state = false →
          Chg g (cells.set (g.idx p) (exposedVal g p)) q ∨ q ∈ rest := by
      intro y hy hcy hmine hcnt q hqn hqcov
      rcases (hchg' y hy).mp hcy with hold | hyp
      · rcases inv.frontier y hy hold hmine hcnt q hqn hqcov with h | h
        · exact Or.inl ((hchg' q (nbrs_inB g y q hqn)).mpr (Or.inl h))
        · rcases List.mem_cons.mp h with rfl | hr
          · exact Or.inl (Chg_set_self g cells q hin.2 hcovP)
          · exact Or.inr hr
      · subst hyp
        exact absurd ⟨hmine, hcnt⟩ hnz
    have inv' : LoopInv g rest (cells.set (g.idx p) (exposedVal g p)) := by
      refine ⟨inv.wf, ?_, hcellsB', ?_, hfront'⟩
      · rw [List.length_set]
        exact inv.len
      · intro x hx
        exact inv.wlB x (List.mem_cons_of_mem p hx)
    obtain ⟨L, B, E⟩ := ih inv'
    refine ⟨L, B, ?_⟩
    intro x hx
    refine Iff.trans (E x hx) ?_
    constructor
    · rintro (hc | ⟨s, hs, hr⟩)
      · rcases (hchg' x hx).mp hc with h | h
        · exact Or.inl h
        · exact Or.inr ⟨p, hmemp, h ▸ Reach.base⟩
      · exact Or.inr ⟨s, List.mem_cons_of_mem p hs, hr⟩
    · rintro (hc | ⟨s, hs, hr⟩)
      · exact Or.inl ((hchg' x hx).mpr (Or.inl hc))
      · rcases List.mem_cons.mp hs with hsp | hsr
        · rw [hsp] at hr
          rcases reach_start_cases g p x hr with hxp | ⟨_, hmine, hcnt⟩
          · rw [hxp]
            exact Or.inl (Chg_set_self g cells p hin.2 hcovP)
          · exact absurd ⟨hmine, hcnt⟩ hnz
        · exact Or.inr ⟨s, hsr, hr⟩
  | case4 cells p rest hniB =>
    intro inv
    exfalso
    apply hniB
    have hinB : g.inB p := (inv.wlB p (List.mem_cons_self p rest)).1
    refine ⟨hinB, ?_⟩
    rw [inv.len]
    exact idx_lt g p inv.wf hinB

theorem Chg_orig_false (g : GameState) (x : Nat × Nat) :
    ¬ Chg g g.cells x := by
  intro h
  have h2 := h.2
  have h1 := h.1
  rw [show cellIn g g.cells x = g.cellAt x from rfl] at h2
  rw [h2] at h1
  exact absurd h1 (by simp [exposedVal, isExposedState])

theorem clearCellFlood_eq (g : GameState) (r c : Nat) (sample : List Nat)
    (halloc : g.minesAllocated = true) (hb : g.inB (r, c))
    (hcov : isExposedState (g.cellAt (r, c)).state = false) :
    clearCellFlood g r c sample =
      { g with cells := floodLoop g [(r, c)] g.cells } := by
  unfold clearCellFlood
  rw [if_neg (not_not_intro hb), if_neg (by simp [hcov]), if_pos halloc]

/-- Full characterization of the flood-filling `clearCell` on an allocated
board with a covered in-bounds target: every coordinate reachable from the
target (through chains of covered mine-free zero-count cells) is exposed with
the correct exposure value, every other coordinate is untouched, and the
scalar fields are preserved. -/
theorem clearCellFlood_spec (g : GameState) (r c : Nat) (sample : List Nat)
    (hwf : g.WF) (halloc : g.minesAllocated = true) (hb : g.inB (r, c))
    (hcov : isExposedState (g.cellAt (r, c)).state = false) :
    ((clearCellFlood g r c sample).numRows = g.numRows ∧
     (clearCellFlood g r c sample).numColumns = g.numColumns ∧
     (clearCellFlood g r c sample).numMines = g.numMines ∧
     (clearCellFlood g r c sample).minesAllocated = g.minesAllocated ∧
     (clearCellFlood g r c sample).cells.length = g.cells.length) ∧
    (∀ x, g.inB x → Reach g (r, c) x →
        (clearCellFlood g r c sample).cellAt x = exposedVal g x) ∧
    (∀ x, g.inB x → ¬ Reach g (r, c) x →
        (clearCellFlood g r c sample).cellAt x = g.cellAt x) := by
  have inv : LoopInv g [(r, c)] g.cells := by
    refine ⟨hwf, rfl, fun p _ => Or.inl rfl, ?_, ?_⟩
    · intro p hp
      rw [List.mem_singleton] at hp
      subst hp
      exact ⟨hb, hcov⟩
    · intro p _ hchg
      exact absurd hchg (Chg_orig_false g p)
  obtain ⟨L, B, E⟩ := floodLoop_main g [(r, c)] g.cells inv
  rw [clearCellFlood_eq g r c sample halloc hb hcov]
  refine ⟨⟨rfl, rfl, rfl, halloc ▸ rfl, L⟩, ?_, ?_⟩
  · intro x hx hr
    have hc : Chg g (floodLoop g [(r, c)] g.cells) x := by
      rw [E x hx]
      exact Or.inr ⟨(r, c), List.mem_singleton.mpr rfl, hr⟩
    exact hc.2
  · intro x hx hnr
    have hnc : ¬ Chg g (floodLoop g [(r, c)] g.cells) x := by
      rw [E x hx]
      rintro (h | ⟨s, hs, h⟩)
      · exact Chg_orig_false g x h
      · rw [List.mem_singleton] at hs
        subst hs
        exact hnr h
    rcases B x hx with h | h
    · exact h
    · exact absurd h hnc

/-! ## Game status (spec comparison)

The code's `GameInfo` has no status field; the following two definitions
follow the spec's words and exist only to compare the spec's claimed status
derivation against the code. -/

/-- Modelled from the spec: the status values `{InProgress, Win, Lose}` the
spec says `GameInfo` derives.  No such type or field exists in the code. -/
inductive SpecStatus where
  | InProgress : SpecStatus
  | Win : SpecStatus
  | Lose : SpecStatus
deriving DecidableEq, Repr

/-- Modelled from the spec: "every mine cell is flagged as a mine and every
non-mine cell is exposed", evaluated over the whole grid. -/
def specWin (g : GameState) : Bool :=
  (List.range g.numRows).all (fun r =>
    (List.range g.numColumns).all (fun c =>
      if (g.cellAt (r, c)).hasMine then
        (g.cellAt (r, c)).state = CellState.covered (some .Mine)
      else isExposedState (g.cellAt (r, c)).state))

/-- A 1×1 board, constructible through the explicit-cells constructor, whose
single cell has no mine but is exposed as exploded. -/
def loneCells : List Cell := [⟨false, .exposed true 0⟩]

/-- The board the explicit-cells constructor builds from `loneCells`. -/
def bLone : GameState := ⟨loneCells, 1, 1, countMines loneCells, true⟩

/-! ### The `gameInfo` fold versus direct counts -/

theorem gameInfo_foldl (cells : List Cell) (a b : Nat) :
    cells.foldl
      (fun (info : Nat × Nat) cell =>
        (info.1 + (if hasMarkedMine cell then 1 else 0),
         info.2 + (if isExplodedCell cell then 1 else 0))) (a, b) =
    (a + cells.countP (fun cell => hasMarkedMine cell),
     b + cells.countP (fun cell => isExplodedCell cell)) := by
  induction cells generalizing a b with
  | nil => simp
  | cons x xs ih =>
    rw [List.foldl_cons, ih]
    rw [List.countP_cons, List.countP_cons]
    refine Prod.ext ?_ ?_ <;> simp only [] <;> split <;> omega

theorem countP_marked_split (cells : List Cell) :
    cells.countP (fun cell => hasMarkedMine cell) =
      cells.countP
        (fun cell => cell.state = CellState.covered (some Marker.Mine)) +
      cells.countP (fun cell => isExplodedCell cell) := by
  induction cells with
  | nil => rfl
  | cons x xs ih =>
    rw [List.countP_cons, List.countP_cons, List.countP_cons, ih]
    have hone : (if hasMarkedMine x = true then (1 : Nat) else 0) =
        (if decide (x.state = CellState.covered (some Marker.Mine)) = true
          then (1 : Nat) else 0) +
          (if isExplodedCell x = true then (1 : Nat) else 0) := by
      rcases hx : x.state with m | ⟨e, n⟩
      · rcases m with _ | mk
        · simp [hasMarkedMine, isExplodedCell, hx]
        · rcases mk
          · simp [hasMarkedMine, isExplodedCell, hx]
          · simp [hasMarkedMine, isExplodedCell, hx]
      · cases e
        · simp [hasMarkedMine, isExplodedCell, hx]
        · simp [hasMarkedMine, isExplodedCell, hx]
    omega

/-! ## `markCell` support -/

theorem cellAt_setCellState_self (g : GameState) (p : Nat × Nat)
    (s : CellState) (hwf : g.WF) (hb : g.inB p) :
    (setCellState g p s).cellAt p = ⟨(g.cellAt p).hasMine, s⟩ := by
  unfold setCellState GameState.cellAt
  simp only
  exact getD_set_self _ _ _ _ (idx_lt g p hwf hb)

theorem cellAt_setCellState_other (g : GameState) (p q : Nat × Nat)
    (s : CellState) (hp : g.inB p) (hq : g.inB q) (hne : q ≠ p) :
    (setCellState g p s).cellAt q = g.cellAt q := by
  unfold setCellState GameState.cellAt
  simp only
  exact getD_set_other _ _ _ _ _ (fun h => hne (idx_inj g q p hq hp h))

theorem GameState.ext' (g1 g2 : GameState) (h1 : g1.cells = g2.cells)
    (h2 : g1.numRows = g2.numRows) (h3 : g1.numColumns = g2.numColumns)
    (h4 : g1.numMines = g2.numMines)
    (h5 : g1.minesAllocated = g2.minesAllocated) : g1 = g2 := by
  cases g1
  cases g2
  simp only [GameState.mk.injEq]
  exact ⟨h1, h2, h3, h4, h5⟩

theorem setCellState_idem (g : GameState) (p : Nat × Nat) (s : CellState)
    (hwf : g.WF) (hb : g.inB p) :
    setCellState (setCellState g p s) p s = setCellState g p s := by
  have h1 := cellAt_setCellState_self g p s hwf hb
  apply GameState.ext'
  · show (setCellState g p s).cells.set ((setCellState g p s).idx p)
      ⟨((setCellState g p s).cellAt p).hasMine, s⟩ = (setCellState g p s).cells
    rw [h1]
    show (g.cells.set (g.idx p) ⟨(g.cellAt p).hasMine, s⟩).set (g.idx p)
      ⟨(g.cellAt p).hasMine, s⟩ = g.cells.set (g.idx p) ⟨(g.cellAt p).hasMine, s⟩
    rw [List.set_set]
  · rfl
  · rfl
  · rfl
  · rfl

theorem allocCells_hasMine (cells : List Cell) (i j : Nat) (locs : List Nat)
    (h : j < cells.length) :
    ((allocCells cells i locs).getD j defaultCell).hasMine
      = locs.contains (i + j) := by
  have hg := allocCells_get? cells i j locs
  rw [getD_eq_get?, hg]
  cases hc : cells.get? j with
  | none =>
    exact absurd ((get?_none_iff cells j).mp hc) (by omega)
  | some cell => rfl

/-! ## Claim C5 -/

/-- C5 (counterexample): the claim says `gameInfo` yields a game status with
`Lose ↔ numExploded > 0`, `Win ↔` every mine flagged and every non-mine cell
exposed, `InProgress` otherwise.  The code's `GameInfo` carries no status at
all, and no status assignment can even satisfy those equivalences: the board
`bLone` — built by the explicit-cells constructor from one mine-free cell
recorded as exposed-exploded — has `numExploded = 1` (so its status would
have to be `Lose`) while the win condition also holds vacuously (so it would
have to be `Win`). -/
theorem gameInfo_no_consistent_status :
    mkGameOfCells 1 1 loneCells = some bLone ∧
    ¬ ∃ status : GameState → SpecStatus, ∀ g : GameState,
        ((status g = SpecStatus.Lose) ↔ 0 < (gameInfo g).numExploded) ∧
        ((status g = SpecStatus.Win) ↔ specWin g = true) ∧
        ((status g = SpecStatus.InProgress) ↔
          ¬ (0 < (gameInfo g).numExploded ∨ specWin g = true)) := by
  refine ⟨rfl, ?_⟩
  rintro ⟨status, hstat⟩
  obtain ⟨hl, hw, _⟩ := hstat bLone
  have h1 : status bLone = SpecStatus.Lose := hl.mpr (by decide)
  have h2 : status bLone = SpecStatus.Win := hw.mpr (by decide)
  rw [h1] at h2
  cases h2

/-- C5 (amended): `gameInfo` derives no status; it yields exactly the three
counters — the stored `numMines`, `numExploded` counting exposed exploded
cells, and `numMarkedMines` counting covered cells marked as mines plus the
exposed exploded cells. -/
theorem gameInfo_counts (g : GameState) :
    (gameInfo g).numMines = g.numMines ∧
    (gameInfo g).numExploded =
      g.cells.countP (fun cell => isExplodedCell cell) ∧
    (gameInfo g).numMarkedMines =
      g.cells.countP
        (fun cell => cell.state = CellState.covered (some Marker.Mine)) +
      g.cells.countP (fun cell => isExplodedCell cell) := by
  have hfold := gameInfo_foldl g.cells 0 0
  refine ⟨rfl, ?_, ?_⟩
  · show (g.cells.foldl
      (fun (info : Nat × Nat) cell =>
        (info.1 + (if hasMarkedMine cell then 1 else 0),
         info.2 + (if isExplodedCell cell then 1 else 0))) (0, 0)).2 = _
    rw [hfold]
    simp
  · show (g.cells.foldl
      (fun (info : Nat × Nat) cell =>
        (info.1 + (if hasMarkedMine cell then 1 else 0),
         info.2 + (if isExplodedCell cell then 1 else 0))) (0, 0)).1 = _
    rw [hfold]
    show 0 + g.cells.countP (fun cell => hasMarkedMine cell) = _
    rw [countP_marked_split]
    omega

/-! ## Claim C8 -/

/-- C8: `markCell` fails with `InvalidOperation` exactly when the target cell
is exposed; on a covered cell it succeeds, replaces only that cell's marker
(an absent marker clearing it), and a second identical call returns the same
board. -/
theorem markCell_contract (g : GameState) (r c : Nat) (m : Option Marker)
    (hwf : g.WF) (hb : g.inB (r, c)) :
    (markCell g r c m = Except.error MsError.invalidOperation ↔
      isExposedState (g.cellAt (r, c)).state = true) ∧
    (isExposedState (g.cellAt (r, c)).state = false →
      markCell g r c m
        = Except.ok (setCellState g (r, c) (CellState.covered m)) ∧
      (setCellState g (r, c) (CellState.covered m)).cellAt (r, c)
        = ⟨(g.cellAt (r, c)).hasMine, CellState.covered m⟩ ∧
      (∀ q, g.inB q → q ≠ (r, c) →
        (setCellState g (r, c) (CellState.covered m)).cellAt q = g.cellAt q) ∧
      (setCellState g (r, c) (CellState.covered m)).numRows = g.numRows ∧
      (setCellState g (r, c) (CellState.covered m)).numColumns
        = g.numColumns ∧
      markCell (setCellState g (r, c) (CellState.covered m)) r c m
        = Except.ok (setCellState g (r, c) (CellState.covered m))) := by
  constructor
  · unfold markCell
    rw [if_neg (not_not_intro hb)]
    by_cases hexp : isExposedState (g.cellAt (r, c)).state = true
    · rw [if_pos hexp]
      simp [hexp]
    · rw [if_neg hexp]
      constructor
      · intro h
        exact absurd h (by simp)
      · intro h
        exact absurd h hexp
  · intro hcov
    refine ⟨?_,
      cellAt_setCellState_self g (r, c) (CellState.covered m) hwf hb,
      ?_, rfl, rfl, ?_⟩
    · unfold markCell
      rw [if_neg (not_not_intro hb), if_neg (by simp [hcov])]
    · intro q hq hne
      exact cellAt_setCellState_other g (r, c) q (CellState.covered m) hb hq hne
    · unfold markCell
      have hb' : (setCellState g (r, c) (CellState.covered m)).inB (r, c) := hb
      rw [if_neg (not_not_intro hb')]
      have hc' : isExposedState ((setCellState g (r, c)
          (CellState.covered m)).cellAt (r, c)).state = false := by
        rw [cellAt_setCellState_self g (r, c) (CellState.covered m) hwf hb]
        rfl
      rw [if_neg (by simp [hc'])]
      rw [setCellState_idem g (r, c) (CellState.covered m) hwf hb]

/-- Witness for C8 at a concrete fresh 1×2 board. -/
theorem markCell_contract_witness :
    markCell (mkGame 1 2 0) 0 1 (some Marker.Mine)
      = Except.ok (setCellState (mkGame 1 2 0) (0, 1)
          (CellState.covered (some Marker.Mine))) := by
  have h := markCell_contract (mkGame 1 2 0) 0 1 (some Marker.Mine)
    (by unfold GameState.WF; decide) (by decide)
  exact (h.2 (by decide)).1

/-! ## Claim C10 -/

/-- C10: the lazy allocation step changes only `hasMine` (set from the sampled
locations, regardless of any marker on the cell) and the `minesAllocated`
flag; every cell's visible state — covered/exposed kind and marker — and all
scalar fields are untouched. -/
theorem allocateMines_frame (g : GameState) (locs : List Nat) :
    (allocateMines g locs).numRows = g.numRows ∧
    (allocateMines g locs).numColumns = g.numColumns ∧
    (allocateMines g locs).numMines = g.numMines ∧
    (allocateMines g locs).minesAllocated = true ∧
    (allocateMines g locs).cells.length = g.cells.length ∧
    (∀ i, ((allocateMines g locs).cells.getD i defaultCell).state
        = (g.cells.getD i defaultCell).state) ∧
    (∀ i, i < g.cells.length →
      ((allocateMines g locs).cells.getD i defaultCell).hasMine
        = locs.contains i) := by
  refine ⟨rfl, rfl, rfl, rfl, allocCells_length g.cells 0 locs,
    fun i => allocCells_state g.cells 0 i locs defaultCell, fun i hi => ?_⟩
  have h := allocCells_hasMine g.cells 0 i locs hi
  simpa using h

/-- Witness for C10: on a fresh 1×2 board where cell 0 is flagged first, the
allocation writes a real mine under the flag and keeps the marker. -/
theorem allocateMines_frame_witness :
    0 < (setCellState (mkGame 1 2 1) (0, 0)
        (CellState.covered (some Marker.Mine))).cells.length ∧
    ((allocateMines (setCellState (mkGame 1 2 1) (0, 0)
        (CellState.covered (some Marker.Mine))) [0]).cells.getD 0
          defaultCell).hasMine = true ∧
    ((allocateMines (setCellState (mkGame 1 2 1) (0, 0)
        (CellState.covered (some Marker.Mine))) [0]).cells.getD 0
          defaultCell).state = CellState.covered (some Marker.Mine) := by
  have h := allocateMines_frame (setCellState (mkGame 1 2 1) (0, 0)
    (CellState.covered (some Marker.Mine))) [0]
  refine ⟨by decide, ?_, ?_⟩
  · rw [h.2.2.2.2.2.2 0 (by decide)]
    decide
  · rw [h.2.2.2.2.2.1 0]
    decide

/-! ## Mine-count accounting for the lazy allocation -/

theorem getD_replicate_self (n i : Nat) (d : Cell) :
    (List.replicate n d).getD i d = d := by
  rw [getD_eq_get?]
  cases h : (List.replicate n d).get? i with
  | none => rfl
  | some a =>
    have := List.get?_mem h
    simp [List.eq_of_mem_replicate this]

theorem countP_not_add {α : Type} (p : α → Bool) (l : List α) :
    l.countP p + l.countP (fun a => ! p a) = l.length := by
  induction l with
  | nil => rfl
  | cons x xs ih =>
    rw [List.countP_cons, List.countP_cons, List.length_cons]
    cases h : p x <;> simp [h] <;> omega

theorem countP_range_mem (n : Nat) (S : List Nat) (hnd : S.Nodup)
    (hlt : ∀ x ∈ S, x < n) :
    (List.range n).countP (fun j => S.contains j) = S.length := by
  rw [List.countP_eq_length_filter]
  have hnd1 : ((List.range n).filter (fun j => S.contains j)).Nodup :=
    List.Nodup.filter _ (List.nodup_range n)
  have hsub1 : (List.range n).filter (fun j => S.contains j) ⊆ S := by
    intro x hx
    rw [List.mem_filter] at hx
    simpa using hx.2
  have hsub2 : S ⊆ (List.range n).filter (fun j => S.contains j) := by
    intro x hx
    rw [List.mem_filter, List.mem_range]
    exact ⟨hlt x hx, by simpa using hx⟩
  have h1 := (List.subperm_of_subset hnd1 hsub1).length_le
  have h2 := (List.subperm_of_subset hnd hsub2).length_le
  omega

theorem countMines_allocCells (cells : List Cell) (i : Nat)
    (locs : List Nat) :
    countMines (allocCells cells i locs)
      = (List.range' i cells.length).countP (fun j => locs.contains j) := by
  induction cells generalizing i with
  | nil => rfl
  | cons x xs ih =>
    show countMines (⟨locs.contains i, x.state⟩ :: allocCells xs (i + 1) locs)
      = (List.range' i (xs.length + 1)).countP (fun j => locs.contains j)
    unfold countMines at *
    rw [List.countP_cons, ih (i + 1), List.range'_succ, List.countP_cons]

theorem countMines_allocateMines (g : GameState) (locs : List Nat) :
    countMines (allocateMines g locs).cells
      = (List.range g.cells.length).countP (fun j => locs.contains j) := by
  show countMines (allocCells g.cells 0 locs) = _
  rw [countMines_allocCells, List.range_eq_range']

theorem countMines_setCellState (g : GameState) (p : Nat × Nat)
    (s : CellState) : countMines (setCellState g p s).cells
      = countMines g.cells := by
  by_cases hl : g.idx p < g.cells.length
  · unfold countMines setCellState
    simp only
    apply countP_set_same g.cells (g.idx p) _ defaultCell
    rfl
  · unfold setCellState
    simp only
    rw [set_oob _ _ _ (by omega)]

/-- The safe zone indexes at most nine cells, so at least
`numRows*numColumns − 9` positions stay eligible for mines. -/
theorem potential_length_ge (g : GameState) (r c : Nat) :
    g.numRows * g.numColumns ≤ (potentialMineLocations g r c).length + 9 := by
  unfold potentialMineLocations
  set noMine := (neighborCoords g.numRows g.numColumns r c ++ [(r, c)]).map
    (fun p => g.idx p) with hnm
  set n := g.numRows * g.numColumns with hn
  have hsplit := countP_not_add (fun i => decide (i ∈ noMine)) (List.range n)
  have hcongr : (List.range n).countP
      (fun i => decide (¬ i ∈ noMine)) =
      (List.range n).countP (fun i => ! decide (i ∈ noMine)) := by
    apply List.countP_congr
    intro x _
    rw [decide_not]
  have hlen : (List.range n).countP (fun i => decide (i ∈ noMine)) ≤ 9 := by
    rw [List.countP_eq_length_filter]
    have hnd : ((List.range n).filter (fun i => decide (i ∈ noMine))).Nodup :=
      List.Nodup.filter _ (List.nodup_range n)
    have hsub : (List.range n).filter (fun i => decide (i ∈ noMine)) ⊆
        noMine := by
      intro x hx
      rw [List.mem_filter] at hx
      simpa using hx.2
    have h1 := (List.subperm_of_subset hnd hsub).length_le
    have h9 : noMine.length ≤ 9 := by
      rw [hnm, List.length_map, List.length_append]
      have h8 : (neighborCoords g.numRows g.numColumns r c).length ≤ 8 := by
        unfold neighborCoords
        exact List.length_filterMap_le _ _
      simp only [List.length_singleton]
      omega
    omega
  rw [List.countP_eq_length_filter] at hcongr
  rw [hcongr]
  have hrange : (List.range n).length = n := List.length_range n
  omega

/-- The target's own index is inside the safe zone, hence never eligible. -/
theorem idx_not_in_potential (g : GameState) (r c : Nat) :
    ¬ g.idx (r, c) ∈ potentialMineLocations g r c := by
  unfold potentialMineLocations
  intro h
  rw [List.mem_filter] at h
  have h2 := h.2
  have hmem : g.idx (r, c) ∈
      ((neighborCoords g.numRows g.numColumns r c ++ [(r, c)]).map
        (fun p => g.idx p)) :=
    List.mem_map.mpr ⟨(r, c),
      List.mem_append.mpr (Or.inr (List.mem_singleton.mpr rfl)), rfl⟩
  simp at h2

/-- Every eligible position is a valid cell index. -/
theorem potential_lt (g : GameState) (r c : Nat) (x : Nat)
    (h : x ∈ potentialMineLocations g r c) :
    x < g.numRows * g.numColumns := by
  unfold potentialMineLocations at h
  rw [List.mem_filter, List.mem_range] at h
  exact h.1

theorem cellAt_allocateMines_state (g : GameState) (locs : List Nat)
    (p : Nat × Nat) :
    ((allocateMines g locs).cellAt p).state = (g.cellAt p).state :=
  allocCells_state g.cells 0 (g.idx p) locs defaultCell

theorem cellAt_allocateMines_hasMine (g : GameState) (locs : List Nat)
    (p : Nat × Nat) (hwf : g.WF) (hp : g.inB p) :
    ((allocateMines g locs).cellAt p).hasMine = locs.contains (g.idx p) := by
  show ((allocCells g.cells 0 locs).getD (g.idx p) defaultCell).hasMine = _
  have h := allocCells_hasMine g.cells 0 (g.idx p) locs (idx_lt g p hwf hp)
  simpa using h

theorem allocateMines_WF (g : GameState) (locs : List Nat) (hwf : g.WF) :
    (allocateMines g locs).WF := by
  show (allocCells g.cells 0 locs).length
    = (allocateMines g locs).numRows * (allocateMines g locs).numColumns
  rw [allocCells_length]
  exact hwf

/-! ## Claim C7 -/

/-- C7: when the requested count fits (`numMines ≤ rows*cols − 9`), the lazy
allocation run by the first `clearCell` places exactly `numMines` mines, for
every outcome of the random sampling. -/
theorem first_clear_places_numMines (g : GameState) (r c : Nat)
    (sample : List Nat) (hwf : g.WF) (hb : g.inB (r, c))
    (hfresh : g.minesAllocated = false)
    (hcov : isExposedState (g.cellAt (r, c)).state = false)
    (hM : g.numMines ≤ g.numRows * g.numColumns - 9)
    (hs : validSample g r c sample) :
    countMines (clearCell g r c sample).cells = g.numMines := by
  rw [clearCell_eq_of_covered g r c sample hb hcov, countMines_setCellState,
    if_neg (by simp [hfresh]), countMines_allocateMines]
  obtain ⟨hnd, hlen, hsub⟩ := hs
  have hx : ∀ x ∈ sample, x < g.cells.length := by
    intro x hxm
    rw [hwf]
    exact potential_lt g r c x (hsub hxm)
  rw [countP_range_mem g.cells.length sample hnd hx]
  have hP := potential_length_ge g r c
  omega

/-- Witness for C7: a 4×3 board with 3 mines; the first reveal at the corner
with the sample `[2, 5, 6]` places exactly 3 mines. -/
theorem first_clear_places_numMines_witness :
    countMines (clearCell (mkGame 4 3 3) 0 0 [2, 5, 6]).cells = 3 := by
  apply first_clear_places_numMines (mkGame 4 3 3) 0 0 [2, 5, 6]
  · show (12 : Nat) = 4 * 3
    decide
  · decide
  · rfl
  · decide
  · decide
  · exact ⟨by decide, by decide, by decide⟩

/-! ## Claim C9 -/

/-- C9: the mine-count constructor performs no validation.  For any requested
count `M` exceeding the number of eligible positions (those outside the first
click's safe zone), construction succeeds, the first `clearCell` silently
places only as many mines as there are eligible positions — fewer than `M` —
and `gameInfo.numMines` still reports `M`. -/
theorem constructor_unvalidated_mines (numRows numColumns M r c : Nat)
    (sample : List Nat)
    (hb : (mkGame numRows numColumns M).inB (r, c))
    (hM : (potentialMineLocations (mkGame numRows numColumns M) r c).length
        < M)
    (hs : validSample (mkGame numRows numColumns M) r c sample) :
    countMines (clearCell (mkGame numRows numColumns M) r c sample).cells
        = (potentialMineLocations (mkGame numRows numColumns M) r c).length ∧
    countMines (clearCell (mkGame numRows numColumns M) r c sample).cells
        < M ∧
    (gameInfo (clearCell (mkGame numRows numColumns M) r c sample)).numMines
        = M := by
  have hwf : (mkGame numRows numColumns M).WF := by
    show (List.replicate (numRows * numColumns) defaultCell).length
      = numRows * numColumns
    simp
  have hcov : isExposedState
      ((mkGame numRows numColumns M).cellAt (r, c)).state = false := by
    show isExposedState ((List.replicate (numRows * numColumns)
      defaultCell).getD _ defaultCell).state = false
    rw [getD_replicate_self]
    rfl
  obtain ⟨hnd, hlen, hsub⟩ := hs
  have hcnt : countMines
      (clearCell (mkGame numRows numColumns M) r c sample).cells
      = sample.length := by
    rw [clearCell_eq_of_covered _ r c sample hb hcov, countMines_setCellState,
      if_neg (by simp [mkGame]), countMines_allocateMines]
    apply countP_range_mem _ sample hnd
    intro x hxm
    rw [hwf]
    exact potential_lt _ r c x (hsub hxm)
  have hmm : (mkGame numRows numColumns M).numMines = M := rfl
  rw [hmm] at hlen
  refine ⟨?_, ?_, ?_⟩
  · rw [hcnt, hlen]
    omega
  · rw [hcnt, hlen]
    omega
  · rw [(gameInfo_counts _).1, clearCell_numMines]
    exact hmm

/-- Witness for C9: a 1×1 board asked to hold 5 mines; no position is
eligible, 0 mines are placed, the reported count stays 5. -/
theorem constructor_unvalidated_mines_witness :
    countMines (clearCell (mkGame 1 1 5) 0 0 []).cells
        = (potentialMineLocations (mkGame 1 1 5) 0 0).length ∧
    countMines (clearCell (mkGame 1 1 5) 0 0 []).cells < 5 ∧
    (gameInfo (clearCell (mkGame 1 1 5) 0 0 [])).numMines = 5 :=
  constructor_unvalidated_mines 1 1 5 0 0 [] (by decide) (by decide)
    ⟨List.nodup_nil, by decide, by decide⟩

/-! ## Claim C2 -/

theorem clearCellFlood_fresh_eq (g : GameState) (r c : Nat)
    (sample : List Nat) (hb : g.inB (r, c))
    (hcov : isExposedState (g.cellAt (r, c)).state = false)
    (hfresh : g.minesAllocated = false) :
    clearCellFlood g r c sample
      = clearCellFlood (allocateMines g sample) r c sample := by
  have hcov' : isExposedState
      ((allocateMines g sample).cellAt (r, c)).state = false := by
    rw [cellAt_allocateMines_state]
    exact hcov
  rw [clearCellFlood_eq (allocateMines g sample) r c sample rfl hb hcov']
  unfold clearCellFlood
  rw [if_neg (not_not_intro hb), if_neg (by simp [hcov]),
    if_neg (by simp [hfresh])]

/-- C2: on a freshly constructed board (mines not yet allocated) with
`numMines ≤ rows*cols − 9`, the first `clearCell` at any in-bounds coordinate
— for every outcome of the random sampling — leaves that cell Exposed with
`exploded = false`, in both engine variants: the sampled mine locations all
lie outside the target's safe zone. -/
theorem first_clear_safe (g : GameState) (r c : Nat) (sample : List Nat)
    (hwf : g.WF) (hb : g.inB (r, c)) (hfresh : g.minesAllocated = false)
    (hcov : isExposedState (g.cellAt (r, c)).state = false)
    (hM : g.numMines ≤ g.numRows * g.numColumns - 9)
    (hs : validSample g r c sample) :
    ((clearCell g r c sample).cellAt (r, c)).state
        = CellState.exposed false
            (mineCount (allocateMines g sample) (r, c)) ∧
    ((clearCellFlood g r c sample).cellAt (r, c)).state
        = CellState.exposed false
            (mineCount (allocateMines g sample) (r, c)) := by
  have hnomine : ((allocateMines g sample).cellAt (r, c)).hasMine = false := by
    rw [cellAt_allocateMines_hasMine g sample (r, c) hwf hb]
    have hnm : ¬ g.idx (r, c) ∈ sample :=
      fun h => idx_not_in_potential g r c (hs.2.2 h)
    simp [hnm]
  have hwf' := allocateMines_WF g sample hwf
  have hcov' : isExposedState
      ((allocateMines g sample).cellAt (r, c)).state = false := by
    rw [cellAt_allocateMines_state]
    exact hcov
  constructor
  · rw [clearCell_eq_of_covered g r c sample hb hcov, if_neg (by simp [hfresh])]
    rw [cellAt_setCellState_self (allocateMines g sample) (r, c) _ hwf' hb]
    simp only
    rw [hnomine]
  · rw [clearCellFlood_fresh_eq g r c sample hb hcov hfresh]
    have hspec := clearCellFlood_spec (allocateMines g sample) r c sample
      hwf' rfl hb hcov'
    rw [hspec.2.1 (r, c) hb Reach.base]
    show (exposedVal (allocateMines g sample) (r, c)).state = _
    unfold exposedVal
    simp only
    rw [hnomine]

/-- Witness for C2 on a fresh 4×3 board with 3 mines. -/
theorem first_clear_safe_witness :
    ((clearCell (mkGame 4 3 3) 0 0 [2, 5, 6]).cellAt (0, 0)).state
        = CellState.exposed false
            (mineCount (allocateMines (mkGame 4 3 3) [2, 5, 6]) (0, 0)) :=
  (first_clear_safe (mkGame 4 3 3) 0 0 [2, 5, 6]
    (by show (12 : Nat) = 4 * 3; decide) (by decide) rfl (by decide)
    (by decide) ⟨by decide, by decide, by decide⟩).1

/-! ## Claim C1 -/

/-- The reachability relation exactly as the claim words it: chains through
cells that are not mines and have a zero neighbor-mine count, with no
restriction to covered cells. -/
inductive ReachClaim (g : GameState) (s : Nat × Nat) : (Nat × Nat) → Prop where
  | base : ReachClaim g s s
  | step (p q : Nat × Nat) : ReachClaim g s p →
      (g.cellAt p).hasMine = false →
      mineCount g p = 0 →
      q ∈ g.nbrs p →
      ReachClaim g s q

/-- A 1×4 mine-free board (explicit-cells constructor) whose second cell is
already exposed with a zero count: an exposed "bridge" inside a zero
region. -/
def bridgeCells : List Cell :=
  [⟨false, .covered none⟩, ⟨false, .exposed false 0⟩,
   ⟨false, .covered none⟩, ⟨false, .covered none⟩]

/-- The board the explicit-cells constructor builds from `bridgeCells`. -/
def bridge : GameState := ⟨bridgeCells, 1, 4, countMines bridgeCells, true⟩

/-- C1 (counterexample): on `bridge`, cell (0,3) is reachable from (0,0)
through chains of zero-count non-mine cells — exactly as the claim words it —
yet the flood-filling `clearCell` at (0,0) leaves (0,3) covered: the cascade
never crosses the already-exposed cell (0,1), because the loop only pushes
neighbors that are not yet exposed. -/
theorem clearCell_cascade_not_exact :
    mkGameOfCells 1 4 bridgeCells = some bridge ∧
    (bridge.cellAt (0, 0)).hasMine = false ∧
    mineCount bridge (0, 0) = 0 ∧
    ReachClaim bridge (0, 0) (0, 3) ∧
    ((clearCellFlood bridge 0 0 []).cellAt (0, 3)).state
      = CellState.covered none := by
  refine ⟨rfl, by decide, by decide, ?_, ?_⟩
  · have h1 : ReachClaim bridge (0, 0) (0, 1) :=
      ReachClaim.step (0, 0) (0, 1) ReachClaim.base (by decide) (by decide)
        (by decide)
    have h2 : ReachClaim bridge (0, 0) (0, 2) :=
      ReachClaim.step (0, 1) (0, 2) h1 (by decide) (by decide) (by decide)
    exact ReachClaim.step (0, 2) (0, 3) h2 (by decide) (by decide) (by decide)
  · have hstay : ∀ z, Reach bridge (0, 0) z → z = (0, 0) := by
      intro z hz
      induction hz with
      | base => rfl
      | step p q hp hcov hmine hcnt hq hqcov ih =>
        rw [ih] at hq
        have hq1 : q = (0, 1) := by
          rw [show bridge.nbrs (0, 0) = [(0, 1)] from by decide] at hq
          simpa using hq
        rw [hq1] at hqcov
        exact absurd hqcov (by decide)
    have hnr : ¬ Reach bridge (0, 0) (0, 3) := by
      intro h
      exact absurd (hstay (0, 3) h) (by decide)
    have hspec := clearCellFlood_spec bridge 0 0 [] rfl rfl (by decide)
      (by decide)
    rw [hspec.2.2 (0, 3) (by decide) hnr]
    decide

/-- C1 (amended): on a mines-allocated board, revealing a covered, mine-free,
zero-count cell with the flood-filling `clearCell` exposes exactly the cells
reachable from the target through chains of covered mine-free zero-count
cells — the covered bordering cells with a positive count are exposed but do
not cascade further (`Reach` adds neighbors only across zero-count links) —
and every other cell, including everything already exposed, keeps its exact
previous state. -/
theorem clearCellFlood_cascade_exact (g : GameState) (r c : Nat)
    (sample : List Nat) (hwf : g.WF) (halloc : g.minesAllocated = true)
    (hb : g.inB (r, c))
    (hcov : isExposedState (g.cellAt (r, c)).state = false)
    (hmine : (g.cellAt (r, c)).hasMine = false)
    (hzero : mineCount g (r, c) = 0) :
    ∀ x, g.inB x →
      (Reach g (r, c) x → (clearCellFlood g r c sample).cellAt x
          = ⟨(g.cellAt x).hasMine,
              CellState.exposed (g.cellAt x).hasMine (mineCount g x)⟩) ∧
      (¬ Reach g (r, c) x → (clearCellFlood g r c sample).cellAt x
          = g.cellAt x) := by
  intro x hx
  have hspec := clearCellFlood_spec g r c sample hwf halloc hb hcov
  exact ⟨fun h => hspec.2.1 x hx h, fun h => hspec.2.2 x hx h⟩

/-- A 1×1 allocated mine-free board with its only cell covered. -/
def bSolo : GameState := ⟨[defaultCell], 1, 1, 0, true⟩

/-- Witness for C1 on the 1×1 board: the target itself is reached and gets
exposed with a zero count. -/
theorem clearCellFlood_cascade_exact_witness :
    (clearCellFlood bSolo 0 0 []).cellAt (0, 0)
      = ⟨false, CellState.exposed false 0⟩ := by
  have h := clearCellFlood_cascade_exact bSolo 0 0 [] rfl rfl (by decide)
    (by decide) (by decide) (by decide)
  have h2 := (h (0, 0) (by decide)).1 Reach.base
  rw [h2]
  decide

/-! ## Chord-clear loop machinery -/

theorem mem_pushNbrs (g : GameState) (p : Nat × Nat)
    (st : List (Nat × Nat)) (x : Nat × Nat) (h : x ∈ pushNbrs g p st) :
    x ∈ st ∨ (x ∈ g.nbrs p ∧ isExposedState (g.cellAt x).state = false) := by
  unfold pushNbrs at h
  have hgen : ∀ (l : List (Nat × Nat)) (st : List (Nat × Nat)),
      x ∈ l.foldl (fun st q =>
        if ¬ isExposedState (g.cellAt q).state ∧ ¬ lodashFindMatch st q then
          q :: st else st) st →
      x ∈ st ∨ (x ∈ l ∧ isExposedState (g.cellAt x).state = false) := by
    intro l
    induction l with
    | nil =>
      intro st h
      exact Or.inl h
    | cons q l ih =>
      intro st h
      rw [List.foldl_cons] at h
      rcases ih _ h with hx | hx
      · split at hx
        · rename_i hcond
          rcases List.mem_cons.mp hx with rfl | hx
          · refine Or.inr ⟨List.mem_cons_self _ _, ?_⟩
            have := hcond.1
            simpa using this
          · exact Or.inl hx
        · exact Or.inl hx
      · exact Or.inr ⟨List.mem_cons_of_mem q hx.1, hx.2⟩
  rcases hgen (g.nbrs p) st h with h1 | h1
  · exact Or.inl h1
  · exact Or.inr h1

theorem subset_pushNbrs (g : GameState) (p : Nat × Nat)
    (st : List (Nat × Nat)) : ∀ x ∈ st, x ∈ pushNbrs g p st := by
  unfold pushNbrs
  have hgen : ∀ (l : List (Nat × Nat)) (st : List (Nat × Nat)) (x : Nat × Nat),
      x ∈ st → x ∈ l.foldl (fun st q =>
        if ¬ isExposedState (g.cellAt q).state ∧ ¬ lodashFindMatch st q then
          q :: st else st) st := by
    intro l
    induction l with
    | nil => exact fun st x h => h
    | cons q l ih =>
      intro st x h
      rw [List.foldl_cons]
      apply ih
      split
      · exact List.mem_cons_of_mem q h
      · exact h
  exact fun x h => hgen (g.nbrs p) st x h

theorem mineCount_congr (g g₀ : GameState)
    (hrows : g.numRows = g₀.numRows) (hcols : g.numColumns = g₀.numColumns)
    (hm : ∀ q, g₀.inB q → (g.cellAt q).hasMine = (g₀.cellAt q).hasMine)
    (p : Nat × Nat) : mineCount g p = mineCount g₀ p := by
  unfold mineCount
  have hn : g.nbrs p = g₀.nbrs p := by
    unfold GameState.nbrs
    rw [hrows, hcols]
  rw [hn, List.filter_congr (fun q hq => hm q (nbrs_inB g₀ p q hq))]

theorem mineCount_zero_nbr (g : GameState) (p q : Nat × Nat)
    (h : mineCount g p = 0) (hq : q ∈ g.nbrs p) :
    (g.cellAt q).hasMine = false := by
  unfold mineCount at h
  rw [List.length_eq_zero] at h
  have := List.filter_eq_nil.mp h q hq
  simpa using this

/-- `clearCell` on an already-allocated board: either a no-op (out of bounds
or already exposed) or the single exposure step. -/
theorem clearCell_alloc_cases (g : GameState) (r c : Nat) (s : List Nat)
    (halloc : g.minesAllocated = true) :
    clearCell g r c s = g ∨
    (g.inB (r, c) ∧ isExposedState (g.cellAt (r, c)).state = false ∧
      clearCell g r c s = setCellState g (r, c)
        (.exposed (g.cellAt (r, c)).hasMine (mineCount g (r, c)))) := by
  by_cases hb : g.inB (r, c)
  · by_cases hexp : isExposedState (g.cellAt (r, c)).state = true
    · exact Or.inl (clearCell_of_exposed g r c s hexp)
    · have hcov : isExposedState (g.cellAt (r, c)).state = false := by
        simpa using hexp
      refine Or.inr ⟨hb, hcov, ?_⟩
      rw [clearCell_eq_of_covered g r c s hb hcov, if_pos halloc]
  · exact Or.inl (clearCell_of_oob g r c s hb)

theorem clearCell_minesAllocated_of_alloc (g : GameState) (r c : Nat)
    (s : List Nat) (halloc : g.minesAllocated = true) :
    (clearCell g r c s).minesAllocated = true := by
  rcases clearCell_alloc_cases g r c s halloc with h | ⟨_, _, h⟩
  · rw [h]
    exact halloc
  · rw [h]
    exact halloc

theorem clearCell_length_of_alloc (g : GameState) (r c : Nat) (s : List Nat)
    (halloc : g.minesAllocated = true) :
    (clearCell g r c s).cells.length = g.cells.length := by
  rcases clearCell_alloc_cases g r c s halloc with h | ⟨_, _, h⟩
  · rw [h]
  · rw [h]
    exact List.length_set _ _ _

/-! ### Unfolding equations of `cnLoop` -/

theorem cnLoop_nil (g : GameState) (sample : List Nat) :
    cnLoop g [] sample = g := by
  unfold cnLoop
  rfl

theorem cnLoop_cons_covered (g : GameState) (p : Nat × Nat)
    (rest : List (Nat × Nat)) (sample : List Nat) (m : Option Marker)
    (hst : ((clearCell g p.1 p.2 sample).cellAt p).state
      = CellState.covered m) :
    cnLoop g (p :: rest) sample
      = cnLoop (clearCell g p.1 p.2 sample) rest sample := by
  conv_lhs => unfold cnLoop
  simp only []
  split
  · rfl
  · rename_i e n heq
    rw [hst] at heq
    cases heq

theorem cnLoop_cons_zero (g : GameState) (p : Nat × Nat)
    (rest : List (Nat × Nat)) (sample : List Nat)
    (hst : ((clearCell g p.1 p.2 sample).cellAt p).state
      = CellState.exposed false 0) :
    cnLoop g (p :: rest) sample
      = cnLoop (clearCell g p.1 p.2 sample)
          (pushNbrs (clearCell g p.1 p.2 sample) p rest) sample := by
  conv_lhs => unfold cnLoop
  simp only []
  split
  · rename_i m heq
    rw [hst] at heq
    cases heq
  · rename_i e n heq
    rw [hst] at heq
    injection heq with h1 h2
    subst h1
    subst h2
    rw [if_pos ⟨rfl, rfl⟩]

theorem cnLoop_cons_nonzero (g : GameState) (p : Nat × Nat)
    (rest : List (Nat × Nat)) (sample : List Nat) (e : Bool) (n : Nat)
    (hst : ((clearCell g p.1 p.2 sample).cellAt p).state
      = CellState.exposed e n)
    (hnz : ¬ (e = false ∧ n = 0)) :
    cnLoop g (p :: rest) sample
      = cnLoop (clearCell g p.1 p.2 sample) rest sample := by
  conv_lhs => unfold cnLoop
  simp only []
  split
  · rename_i m heq
    exact absurd (hst.symm.trans heq) (by simp)
  · rename_i e' n' heq
    have h12 := hst.symm.trans heq
    injection h12 with h1 h2
    subst h1
    subst h2
    rw [if_neg hnz]

/-- Invariant carried through `cnLoop` relative to the game `g₀` and initial
work list `wl₀` of the enclosing `clearNeighbors` call: scalar fields are
those of `g₀` (with allocation done), cells differ from `g₀` only by correct
exposures of previously covered cells that are initial entries or mine-free,
and pending entries are in-bounds, previously covered, and initial or
mine-free. -/
structure CNInv (g₀ : GameState) (wl₀ : List (Nat × Nat)) (g : GameState)
    (wl : List (Nat × Nat)) : Prop where
  wf0 : g₀.WF
  rows : g.numRows = g₀.numRows
  cols : g.numColumns = g₀.numColumns
  mines : g.numMines = g₀.numMines
  alloc : g.minesAllocated = true
  len : g.cells.length = g₀.cells.length
  cellsB : ∀ p, g₀.inB p → g.cellAt p = g₀.cellAt p ∨
    (isExposedState (g₀.cellAt p).state = false ∧
      g.cellAt p = exposedVal g₀ p ∧
      (p ∈ wl₀ ∨ (g₀.cellAt p).hasMine = false))
  wlB : ∀ p ∈ wl, g₀.inB p ∧ isExposedState (g₀.cellAt p).state = false ∧
    (p ∈ wl₀ ∨ (g₀.cellAt p).hasMine = false)

/-- Characterization of the `clearNeighbors` work-list loop: scalar fields
survive, cells change only by correct exposures of covered initial-or-mine-free
cells, already-exposed cells keep their exact value, and every pending entry
ends exposed with its correct exposure value. -/
theorem cnLoop_main (g₀ : GameState) (wl₀ : List (Nat × Nat)) :
    ∀ (g : GameState) (wl : List (Nat × Nat)) (sample : List Nat),
    CNInv g₀ wl₀ g wl →
    ((cnLoop g wl sample).numRows = g₀.numRows ∧
     (cnLoop g wl sample).numColumns = g₀.numColumns ∧
     (cnLoop g wl sample).numMines = g₀.numMines ∧
     (cnLoop g wl sample).minesAllocated = true ∧
     (cnLoop g wl sample).cells.length = g₀.cells.length) ∧
    (∀ p, g₀.inB p → (cnLoop g wl sample).cellAt p = g₀.cellAt p ∨
      (isExposedState (g₀.cellAt p).state = false ∧
        (cnLoop g wl sample).cellAt p = exposedVal g₀ p ∧
        (p ∈ wl₀ ∨ (g₀.cellAt p).hasMine = false))) ∧
    (∀ p, g₀.inB p → isExposedState (g.cellAt p).state = true →
      (cnLoop g wl sample).cellAt p = g.cellAt p) ∧
    (∀ p ∈ wl, (cnLoop g wl sample).cellAt p = exposedVal g₀ p) := by
  intro g wl sample
  induction g, wl, sample using cnLoop.induct with
  | case1 g sample =>
    intro inv
    rw [cnLoop_nil]
    exact ⟨⟨inv.rows, inv.cols, inv.mines, inv.alloc, inv.len⟩, inv.cellsB,
      fun p _ _ => rfl, fun p hp => absurd hp (List.not_mem_nil p)⟩
  | case2 g sample p rest g' m hst ih =>
    intro inv
    exfalso
    have hstU : ((clearCell g p.1 p.2 sample).cellAt p).state
        = CellState.covered m := hst
    have hpB₀ := (inv.wlB p (List.mem_cons_self p rest)).1
    have hpB : g.inB p := ⟨by rw [inv.rows]; exact hpB₀.1,
      by rw [inv.cols]; exact hpB₀.2⟩
    have hgwf : g.WF := by
      show g.cells.length = g.numRows * g.numColumns
      rw [inv.len, inv.rows, inv.cols]
      exact inv.wf0
    by_cases hexpg : isExposedState (g.cellAt p).state = true
    · have hgg := clearCell_of_exposed g p.1 p.2 sample hexpg
      rw [hgg] at hstU
      rw [hstU] at hexpg
      cases hexpg
    · have hcovg : isExposedState (g.cellAt p).state = false := by
        simpa using hexpg
      have hgset := clearCell_eq_of_covered g p.1 p.2 sample hpB hcovg
      rw [if_pos inv.alloc] at hgset
      rw [hgset] at hstU
      rw [cellAt_setCellState_self g p _ hgwf hpB] at hstU
      cases hstU
  | case3 g sample p rest g' exploded nmn hst hz ih =>
    intro inv
    have hstU : ((clearCell g p.1 p.2 sample).cellAt p).state
        = CellState.exposed exploded nmn := hst
    obtain ⟨hpB₀, hcovP₀, hPp⟩ := inv.wlB p (List.mem_cons_self p rest)
    have hpB : g.inB p := ⟨by rw [inv.rows]; exact hpB₀.1,
      by rw [inv.cols]; exact hpB₀.2⟩
    have hgwf : g.WF := by
      show g.cells.length = g.numRows * g.numColumns
      rw [inv.len, inv.rows, inv.cols]
      exact inv.wf0
    have hmine : ∀ q, g₀.inB q →
        (g.cellAt q).hasMine = (g₀.cellAt q).hasMine := by
      intro q hq
      rcases inv.cellsB q hq with h | ⟨_, h, _⟩
      · rw [h]
      · rw [h]
        rfl
    have hmc : ∀ q, mineCount g q = mineCount g₀ q :=
      mineCount_congr g g₀ inv.rows inv.cols hmine
    have hev : ∀ q, g₀.inB q → exposedVal g q = exposedVal g₀ q := by
      intro q hq
      unfold exposedVal
      rw [hmine q hq, hmc q]
    -- the two shapes of the inner clearCell
    have hcases := clearCell_alloc_cases g p.1 p.2 sample inv.alloc
    -- scalar fields of g'
    have hrows' : (clearCell g p.1 p.2 sample).numRows = g₀.numRows := by
      rw [clearCell_numRows]
      exact inv.rows
    have hcols' : (clearCell g p.1 p.2 sample).numColumns = g₀.numColumns := by
      rw [clearCell_numColumns]
      exact inv.cols
    have hmines' : (clearCell g p.1 p.2 sample).numMines = g₀.numMines := by
      rw [clearCell_numMines]
      exact inv.mines
    have halloc' := clearCell_minesAllocated_of_alloc g p.1 p.2 sample inv.alloc
    have hlen' : (clearCell g p.1 p.2 sample).cells.length
        = g₀.cells.length := by
      rw [clearCell_length_of_alloc g p.1 p.2 sample inv.alloc]
      exact inv.len
    -- cell bookkeeping of g'
    have hcellsB' : ∀ q, g₀.inB q →
        (clearCell g p.1 p.2 sample).cellAt q = g₀.cellAt q ∨
        (isExposedState (g₀.cellAt q).state = false ∧
          (clearCell g p.1 p.2 sample).cellAt q = exposedVal g₀ q ∧
          (q ∈ wl₀ ∨ (g₀.cellAt q).hasMine = false)) := by
      intro q hq
      rcases hcases with hgg | ⟨hb', hcovg, hgset⟩
      · rw [hgg]
        exact inv.cellsB q hq
      · by_cases hqp : q = p
        · subst hqp
          rw [hgset, cellAt_setCellState_self g q _ hgwf hb']
          refine Or.inr ⟨hcovP₀, ?_, hPp⟩
          rw [← hev q hq]
          rfl
        · have hqB : g.inB q := ⟨by rw [inv.rows]; exact hq.1,
            by rw [inv.cols]; exact hq.2⟩
          rw [hgset, cellAt_setCellState_other g p q _ hpB hqB hqp]
          exact inv.cellsB q hq
    -- the value now at the popped cell
    have hval : (clearCell g p.1 p.2 sample).cellAt p = exposedVal g₀ p := by
      rcases hcellsB' p hpB₀ with h | ⟨_, h, _⟩
      · exfalso
        rw [h] at hstU
        rw [hstU] at hcovP₀
        cases hcovP₀
      · exact h
    -- the recorded exposure values are the true ones of g₀
    have hvals : (g₀.cellAt p).hasMine = false ∧ mineCount g₀ p = 0 := by
      have h1 : (exposedVal g₀ p).state
          = CellState.exposed exploded nmn := by
        rw [← hval]
        exact hstU
      have h2 : CellState.exposed (g₀.cellAt p).hasMine (mineCount g₀ p)
          = CellState.exposed exploded nmn := h1
      injection h2 with h3 h4
      rw [h3, h4]
      exact hz
    -- invariant for the recursive call
    have inv' : CNInv g₀ wl₀ (clearCell g p.1 p.2 sample)
        (pushNbrs (clearCell g p.1 p.2 sample) p rest) := by
      refine ⟨inv.wf0, hrows', hcols', hmines', halloc', hlen', hcellsB', ?_⟩
      intro q hq
      rcases mem_pushNbrs _ p rest q hq with hq1 | ⟨hqn, hqcov⟩
      · exact inv.wlB q (List.mem_cons_of_mem p hq1)
      · have hqB' := nbrs_inB _ p q hqn
        have hqB₀ : g₀.inB q := ⟨by rw [← hrows']; exact hqB'.1,
          by rw [← hcols']; exact hqB'.2⟩
        have hqn₀ : q ∈ g₀.nbrs p := by
          have : (clearCell g p.1 p.2 sample).nbrs p = g₀.nbrs p := by
            unfold GameState.nbrs
            rw [hrows', hcols']
          rw [← this]
          exact hqn
        have hqcov₀ : isExposedState (g₀.cellAt q).state = false := by
          rcases hcellsB' q hqB₀ with h | ⟨h0, h, _⟩
          · rw [← h]
            exact hqcov
          · exact h0
        exact ⟨hqB₀, hqcov₀,
          Or.inr (mineCount_zero_nbr g₀ p q hvals.2 hqn₀)⟩
    have hst0 : ((clearCell g p.1 p.2 sample).cellAt p).state
        = CellState.exposed false 0 := by
      rw [hstU, hz.1, hz.2]
    rw [cnLoop_cons_zero g p rest sample hst0]
    obtain ⟨S', B', F', W'⟩ := ih inv'
    have hgdef : g' = clearCell g p.1 p.2 sample := rfl
    rw [hgdef] at S' B' F' W'
    refine ⟨S', B', ?_, ?_⟩
    · intro x hx hexpg
      rcases hcases with hgg | ⟨hb', hcovg, hgset⟩
      · have := F' x hx (by rw [hgg]; exact hexpg)
        rw [this, hgg]
      · have hxp : x ≠ p := by
          intro h
          rw [h] at hexpg
          rw [hexpg] at hcovg
          cases hcovg
        have hxB : g.inB x := ⟨by rw [inv.rows]; exact hx.1,
          by rw [inv.cols]; exact hx.2⟩
        have hfr : (clearCell g p.1 p.2 sample).cellAt x = g.cellAt x := by
          rw [hgset]
          exact cellAt_setCellState_other g p x _ hpB hxB hxp
        have := F' x hx (by rw [hfr]; exact hexpg)
        rw [this, hfr]
    · intro q hq
      rcases List.mem_cons.mp hq with rfl | hq1
      · have hexp' : isExposedState
            ((clearCell g q.1 q.2 sample).cellAt q).state = true := by
          rw [hval]
          rfl
        have := F' q hpB₀ hexp'
        rw [this, hval]
      · have hq2 := subset_pushNbrs (clearCell g p.1 p.2 sample) p rest q hq1
        exact W' q hq2
  | case4 g sample p rest g' exploded nmn hst hnz ih =>
    intro inv
    have hstU : ((clearCell g p.1 p.2 sample).cellAt p).state
        = CellState.exposed exploded nmn := hst
    obtain ⟨hpB₀, hcovP₀, hPp⟩ := inv.wlB p (List.mem_cons_self p rest)
    have hpB : g.inB p := ⟨by rw [inv.rows]; exact hpB₀.1,
      by rw [inv.cols]; exact hpB₀.2⟩
    have hgwf : g.WF := by
      show g.cells.length = g.numRows * g.numColumns
      rw [inv.len, inv.rows, inv.cols]
      exact inv.wf0
    have hmine : ∀ q, g₀.inB q →
        (g.cellAt q).hasMine = (g₀.cellAt q).hasMine := by
      intro q hq
      rcases inv.cellsB q hq with h | ⟨_, h, _⟩
      · rw [h]
      · rw [h]
        rfl
    have hmc : ∀ q, mineCount g q = mineCount g₀ q :=
      mineCount_congr g g₀ inv.rows inv.cols hmine
    have hev : ∀ q, g₀.inB q → exposedVal g q = exposedVal g₀ q := by
      intro q hq
      unfold exposedVal
      rw [hmine q hq, hmc q]
    have hcases := clearCell_alloc_cases g p.1 p.2 sample inv.alloc
    have hrows' : (clearCell g p.1 p.2 sample).numRows = g₀.numRows := by
      rw [clearCell_numRows]
      exact inv.rows
    have hcols' : (clearCell g p.1 p.2 sample).numColumns = g₀.numColumns := by
      rw [clearCell_numColumns]
      exact inv.cols
    have hmines' : (clearCell g p.1 p.2 sample).numMines = g₀.numMines := by
      rw [clearCell_numMines]
      exact inv.mines
    have halloc' := clearCell_minesAllocated_of_alloc g p.1 p.2 sample inv.alloc
    have hlen' : (clearCell g p.1 p.2 sample).cells.length
        = g₀.cells.length := by
      rw [clearCell_length_of_alloc g p.1 p.2 sample inv.alloc]
      exact inv.len
    have hcellsB' : ∀ q, g₀.inB q →
        (clearCell g p.1 p.2 sample).cellAt q = g₀.cellAt q ∨
        (isExposedState (g₀.cellAt q).state = false ∧
          (clearCell g p.1 p.2 sample).cellAt q = exposedVal g₀ q ∧
          (q ∈ wl₀ ∨ (g₀.cellAt q).hasMine = false)) := by
      intro q hq
      rcases hcases with hgg | ⟨hb', hcovg, hgset⟩
      · rw [hgg]
        exact inv.cellsB q hq
      · by_cases hqp : q = p
        · subst hqp
          rw [hgset, cellAt_setCellState_self g q _ hgwf hb']
          refine Or.inr ⟨hcovP₀, ?_, hPp⟩
          rw [← hev q hq]
          rfl
        · have hqB : g.inB q := ⟨by rw [inv.rows]; exact hq.1,
            by rw [inv.cols]; exact hq.2⟩
          rw [hgset, cellAt_setCellState_other g p q _ hpB hqB hqp]
          exact inv.cellsB q hq
    have hval : (clearCell g p.1 p.2 sample).cellAt p = exposedVal g₀ p := by
      rcases hcellsB' p hpB₀ with h | ⟨_, h, _⟩
      · exfalso
        rw [h] at hstU
        rw [hstU] at hcovP₀
        cases hcovP₀
      · exact h
    have inv' : CNInv g₀ wl₀ (clearCell g p.1 p.2 sample) rest := by
      refine ⟨inv.wf0, hrows', hcols', hmines', halloc', hlen', hcellsB', ?_⟩
      intro q hq
      exact inv.wlB q (List.mem_cons_of_mem p hq)
    rw [cnLoop_cons_nonzero g p rest sample exploded nmn hstU hnz]
    obtain ⟨S', B', F', W'⟩ := ih inv'
    have hgdef : g' = clearCell g p.1 p.2 sample := rfl
    rw [hgdef] at S' B' F' W'
    refine ⟨S', B', ?_, ?_⟩
    · intro x hx hexpg
      rcases hcases with hgg | ⟨hb', hcovg, hgset⟩
      · have := F' x hx (by rw [hgg]; exact hexpg)
        rw [this, hgg]
      · have hxp : x ≠ p := by
          intro h
          rw [h] at hexpg
          rw [hexpg] at hcovg
          cases hcovg
        have hxB : g.inB x := ⟨by rw [inv.rows]; exact hx.1,
          by rw [inv.cols]; exact hx.2⟩
        have hfr : (clearCell g p.1 p.2 sample).cellAt x = g.cellAt x := by
          rw [hgset]
          exact cellAt_setCellState_other g p x _ hpB hxB hxp
        have := F' x hx (by rw [hfr]; exact hexpg)
        rw [this, hfr]
    · intro q hq
      rcases List.mem_cons.mp hq with rfl | hq1
      · have hexp' : isExposedState
            ((clearCell g q.1 q.2 sample).cellAt q).state = true := by
          rw [hval]
          rfl
        have := F' q hpB₀ hexp'
        rw [this, hval]
      · exact W' q hq1

/-! ## Wrapper equations for `clearNeighbors` -/

theorem clearNeighbors_of_oob (g : GameState) (r c : Nat) (sample : List Nat)
    (h : ¬ g.inB (r, c)) : clearNeighbors g r c sample = g := by
  unfold clearNeighbors
  rw [if_pos h]

theorem clearNeighbors_of_covered (g : GameState) (r c : Nat)
    (sample : List Nat)
    (hcov : isExposedState (g.cellAt (r, c)).state = false) :
    clearNeighbors g r c sample = g := by
  by_cases hb : g.inB (r, c)
  · unfold clearNeighbors
    rw [if_neg (not_not_intro hb)]
    split
    · rfl
    · rename_i e n heq
      rw [heq] at hcov
      simp [isExposedState] at hcov
  · exact clearNeighbors_of_oob g r c sample hb

theorem clearNeighbors_of_exploded (g : GameState) (r c : Nat)
    (sample : List Nat) (n : Nat)
    (hst : (g.cellAt (r, c)).state = CellState.exposed true n) :
    clearNeighbors g r c sample = g := by
  by_cases hb : g.inB (r, c)
  · unfold clearNeighbors
    rw [if_neg (not_not_intro hb)]
    split
    · rfl
    · rename_i e n' heq
      have h := hst.symm.trans heq
      injection h with h1 h2
      rw [if_pos h1.symm]
  · exact clearNeighbors_of_oob g r c sample hb

theorem clearNeighbors_of_mismatch (g : GameState) (r c : Nat)
    (sample : List Nat) (e : Bool) (n : Nat)
    (hst : (g.cellAt (r, c)).state = CellState.exposed e n)
    (hne : ((g.nbrs (r, c)).filter (fun q =>
      (g.cellAt q).state = CellState.covered (some Marker.Mine))).length ≠ n) :
    clearNeighbors g r c sample = g := by
  by_cases hb : g.inB (r, c)
  · unfold clearNeighbors
    rw [if_neg (not_not_intro hb)]
    split
    · rfl
    · rename_i e' n' heq
      have h := hst.symm.trans heq
      injection h with h1 h2
      by_cases hexp : e' = true
      · rw [if_pos hexp]
      · rw [if_neg hexp, if_pos (h2 ▸ hne)]
  · exact clearNeighbors_of_oob g r c sample hb

theorem clearNeighbors_pos_eq (g : GameState) (r c : Nat) (sample : List Nat)
    (hb : g.inB (r, c)) (n : Nat)
    (hst : (g.cellAt (r, c)).state = CellState.exposed false n)
    (hlen : ((g.nbrs (r, c)).filter (fun q =>
      (g.cellAt q).state = CellState.covered (some Marker.Mine))).length = n) :
    clearNeighbors g r c sample
      = cnLoop g (((g.nbrs (r, c)).filter (fun q =>
          ¬ isExposedState (g.cellAt q).state ∧
            ¬ ((g.cellAt q).state
              = CellState.covered (some Marker.Mine)))).reverse) sample := by
  unfold clearNeighbors
  rw [if_neg (not_not_intro hb)]
  split
  · rename_i m heq
    exact absurd (hst.symm.trans heq) (by simp)
  · rename_i e' n' heq
    have h := hst.symm.trans heq
    injection h with h1 h2
    rw [if_neg (by rw [← h1]; simp), if_neg (not_not_intro (h2 ▸ hlen))]

/-- Full description of a successful chord clear: every cell is either
untouched or was covered and got its correct exposure value (and then it is a
non-marked covered neighbor of the target, or mine-free); cells exposed
beforehand are untouched; and every covered, non-Mine-marked neighbor of the
target ends exposed with its correct value. -/
theorem clearNeighbors_pos_spec (g : GameState) (r c : Nat) (sample : List Nat)
    (hwf : g.WF) (halloc : g.minesAllocated = true) (hb : g.inB (r, c))
    (n : Nat) (hst : (g.cellAt (r, c)).state = CellState.exposed false n)
    (hlen : ((g.nbrs (r, c)).filter (fun q =>
      (g.cellAt q).state = CellState.covered (some Marker.Mine))).length = n) :
    (∀ p, g.inB p → (clearNeighbors g r c sample).cellAt p = g.cellAt p ∨
      (isExposedState (g.cellAt p).state = false ∧
        (clearNeighbors g r c sample).cellAt p = exposedVal g p ∧
        ((p ∈ g.nbrs (r, c) ∧
          ¬ ((g.cellAt p).state = CellState.covered (some Marker.Mine))) ∨
          (g.cellAt p).hasMine = false))) ∧
    (∀ p, g.inB p → isExposedState (g.cellAt p).state = true →
      (clearNeighbors g r c sample).cellAt p = g.cellAt p) ∧
    (∀ p ∈ g.nbrs (r, c), isExposedState (g.cellAt p).state = false →
      ¬ ((g.cellAt p).state = CellState.covered (some Marker.Mine)) →
      (clearNeighbors g r c sample).cellAt p = exposedVal g p) := by
  rw [clearNeighbors_pos_eq g r c sample hb n hst hlen]
  have hwl : ∀ p ∈ (((g.nbrs (r, c)).filter (fun q =>
      ¬ isExposedState (g.cellAt q).state ∧
        ¬ ((g.cellAt q).state
          = CellState.covered (some Marker.Mine)))).reverse),
      g.inB p ∧ isExposedState (g.cellAt p).state = false ∧
      (p ∈ (((g.nbrs (r, c)).filter (fun q =>
        ¬ isExposedState (g.cellAt q).state ∧
          ¬ ((g.cellAt q).state
            = CellState.covered (some Marker.Mine)))).reverse) ∨
        (g.cellAt p).hasMine = false) := by
    intro p hp
    have hp' := hp
    simp only [List.mem_reverse, List.mem_filter, decide_eq_true_eq] at hp'
    refine ⟨nbrs_inB g (r, c) p hp'.1, ?_, Or.inl hp⟩
    simpa using hp'.2.1
  obtain ⟨S, B, F, W⟩ := cnLoop_main g _ g _ sample
    ⟨hwf, rfl, rfl, rfl, halloc, rfl, fun p _ => Or.inl rfl, hwl⟩
  refine ⟨?_, F, ?_⟩
  · intro p hp
    rcases B p hp with h | ⟨h0, h1, h2⟩
    · exact Or.inl h
    · refine Or.inr ⟨h0, h1, ?_⟩
      rcases h2 with h2 | h2
      · simp only [List.mem_reverse, List.mem_filter, decide_eq_true_eq] at h2
        exact Or.inl ⟨h2.1, h2.2.2⟩
      · exact Or.inr h2
  · intro p hpn hpcov hpnm
    refine W p ?_
    simp only [List.mem_reverse, List.mem_filter, decide_eq_true_eq]
    refine ⟨hpn, ?_, hpnm⟩
    rw [hpcov]
    simp

/-- C3: for an in-bounds target on an allocated well-formed board,
`clearNeighbors` is the unchanged board when the target is covered, when it is
exploded, or when the Mine-marked covered-neighbor count differs from the
stored `numMinesNearby`; and in the remaining case every covered neighbor not
marked as a mine is revealed with its correct exposure value. -/
theorem clearNeighbors_contract (g : GameState) (r c : Nat) (sample : List Nat)
    (hwf : g.WF) (halloc : g.minesAllocated = true) (hb : g.inB (r, c)) :
    ((isExposedState (g.cellAt (r, c)).state = false →
        clearNeighbors g r c sample = g) ∧
      (∀ n, (g.cellAt (r, c)).state = CellState.exposed true n →
        clearNeighbors g r c sample = g) ∧
      (∀ e n, (g.cellAt (r, c)).state = CellState.exposed e n →
        ((g.nbrs (r, c)).filter (fun q =>
          (g.cellAt q).state
            = CellState.covered (some Marker.Mine))).length ≠ n →
        clearNeighbors g r c sample = g)) ∧
    (∀ n, (g.cellAt (r, c)).state = CellState.exposed false n →
      ((g.nbrs (r, c)).filter (fun q =>
        (g.cellAt q).state = CellState.covered (some Marker.Mine))).length = n →
      ∀ q ∈ g.nbrs (r, c), isExposedState (g.cellAt q).state = false →
        ¬ ((g.cellAt q).state = CellState.covered (some Marker.Mine)) →
        (clearNeighbors g r c sample).cellAt q = exposedVal g q) := by
  refine ⟨⟨fun h => clearNeighbors_of_covered g r c sample h,
    fun n h => clearNeighbors_of_exploded g r c sample n h,
    fun e n h hne => clearNeighbors_of_mismatch g r c sample e n h hne⟩, ?_⟩
  intro n hst hlen q hqn hqcov hqnm
  obtain ⟨B, F, W⟩ :=
    clearNeighbors_pos_spec g r c sample hwf halloc hb n hst hlen
  exact W q hqn hqcov hqnm

/-- A 1×3 mine-free board with an exposed center showing count 1, a covered
unmarked left cell and a Mine-marked covered right cell. -/
def bChord : GameState :=
  ⟨[⟨false, .covered none⟩, ⟨false, .exposed false 1⟩,
    ⟨false, .covered (some Marker.Mine)⟩], 1, 3, 0, true⟩

theorem clearNeighbors_contract_witness :
    (bChord.WF ∧ bChord.minesAllocated = true ∧ bChord.inB (0, 1)) ∧
    (clearNeighbors bChord 0 1 []).cellAt (0, 0) = exposedVal bChord (0, 0) := by
  have hwf : bChord.WF := by
    show bChord.cells.length = bChord.numRows * bChord.numColumns
    rfl
  refine ⟨⟨hwf, rfl, by decide⟩, ?_⟩
  exact (clearNeighbors_contract bChord 0 1 [] hwf rfl (by decide)).2
    1 rfl (by decide) (0, 0) (by decide) rfl (by decide)

/-! ## Claim C4: what the cascades do and do not protect -/

theorem clearCellFlood_of_oob (g : GameState) (r c : Nat) (sample : List Nat)
    (h : ¬ g.inB (r, c)) : clearCellFlood g r c sample = g := by
  unfold clearCellFlood
  rw [if_pos h]

theorem clearCellFlood_of_exposed (g : GameState) (r c : Nat)
    (sample : List Nat)
    (h : isExposedState (g.cellAt (r, c)).state = true) :
    clearCellFlood g r c sample = g := by
  by_cases hb : g.inB (r, c)
  · unfold clearCellFlood
    rw [if_neg (not_not_intro hb), if_pos h]
  · exact clearCellFlood_of_oob g r c sample hb

theorem reach_end_covered (g : GameState) (s x : Nat × Nat)
    (h : Reach g s x) :
    x = s ∨ isExposedState (g.cellAt x).state = false := by
  cases h with
  | base => exact Or.inl rfl
  | step p q hp hcov hmine hcnt hq hqcov => exact Or.inr hqcov

/-- A 1×3 board with no mines at all whose rightmost cell is covered and
carries the Mine marker (explicit-cells constructor shape). -/
def bMarkCells : List Cell :=
  [⟨false, .covered none⟩, ⟨false, .covered none⟩,
   ⟨false, .covered (some Marker.Mine)⟩]

/-- The board the explicit-cells constructor builds from `bMarkCells`. -/
def bMark : GameState := ⟨bMarkCells, 1, 3, countMines bMarkCells, true⟩

/-- C4 (counterexample): on `bMark`, the cell (0,2) is covered and carries the
Mine marker and is not the target of the reveal, yet the flood-filling
`clearCell` at (0,0) exposes it: the cascade pushes covered neighbors without
looking at their markers, so a Mine-flagged cell inside a zero region is
auto-revealed. -/
theorem cascade_exposes_marked :
    (bMark.cellAt (0, 2)).state = CellState.covered (some Marker.Mine) ∧
    ((0, 2) : Nat × Nat) ≠ (0, 0) ∧
    ((clearCellFlood bMark 0 0 []).cellAt (0, 2)).state
      = CellState.exposed false 0 := by
  refine ⟨rfl, by decide, ?_⟩
  have hwf : bMark.WF := by
    show bMark.cells.length = bMark.numRows * bMark.numColumns
    rfl
  have h1 : Reach bMark (0, 0) (0, 1) :=
    Reach.step (0, 0) (0, 1) Reach.base rfl rfl (by decide) (by decide) rfl
  have h2 : Reach bMark (0, 0) (0, 2) :=
    Reach.step (0, 1) (0, 2) h1 rfl rfl (by decide) (by decide) rfl
  have hspec := (clearCellFlood_spec bMark 0 0 [] hwf rfl (by decide) rfl).2.1
    (0, 2) (by decide) h2
  rw [hspec]
  rfl

/-- C4 (amended): what the cascades actually guarantee. Cells already exposed
are untouched by both reveal operations. Protection of covered cells is by
actual mine content, not by marker: the flood cascade never touches a mined
covered cell other than its own target, and the chord cascade never touches a
mined covered cell unless it is one of the initially listed neighbors — and a
Mine-marked neighbor is never initially listed. Mine-marked but mine-free
covered cells enjoy no such protection (see the counterexample). -/
theorem cascade_marked_frame (g : GameState) (r c : Nat) (sample : List Nat)
    (hwf : g.WF) (halloc : g.minesAllocated = true) :
    (∀ p, g.inB p → isExposedState (g.cellAt p).state = true →
      (clearCellFlood g r c sample).cellAt p = g.cellAt p) ∧
    (∀ p, g.inB p → p ≠ (r, c) → (g.cellAt p).hasMine = true →
      (clearCellFlood g r c sample).cellAt p = g.cellAt p) ∧
    (∀ p, g.inB p → isExposedState (g.cellAt p).state = true →
      (clearNeighbors g r c sample).cellAt p = g.cellAt p) ∧
    (∀ p, g.inB p → (g.cellAt p).hasMine = true →
      (p ∉ g.nbrs (r, c) ∨
        (g.cellAt p).state = CellState.covered (some Marker.Mine)) →
      (clearNeighbors g r c sample).cellAt p = g.cellAt p) := by
  refine ⟨?_, ?_, ?_, ?_⟩
  · intro p hp hexp
    by_cases hbt : g.inB (r, c)
    · by_cases hexpt : isExposedState (g.cellAt (r, c)).state = true
      · rw [clearCellFlood_of_exposed g r c sample hexpt]
      · have hcovt : isExposedState (g.cellAt (r, c)).state = false := by
          simpa using hexpt
        refine (clearCellFlood_spec g r c sample hwf halloc hbt hcovt).2.2
          p hp ?_
        intro hR
        rcases reach_end_covered g (r, c) p hR with rfl | hcov
        · simp [hcovt] at hexp
        · simp [hexp] at hcov
    · rw [clearCellFlood_of_oob g r c sample hbt]
  · intro p hp hne hM
    by_cases hbt : g.inB (r, c)
    · by_cases hexpt : isExposedState (g.cellAt (r, c)).state = true
      · rw [clearCellFlood_of_exposed g r c sample hexpt]
      · have hcovt : isExposedState (g.cellAt (r, c)).state = false := by
          simpa using hexpt
        refine (clearCellFlood_spec g r c sample hwf halloc hbt hcovt).2.2
          p hp ?_
        intro hR
        cases hR with
        | base => exact hne rfl
        | step s q hs hcov hmine hcnt hq hqcov =>
          have := mineCount_zero_nbr g s p hcnt hq
          simp [this] at hM
    · rw [clearCellFlood_of_oob g r c sample hbt]
  · intro p hp hexp
    by_cases hbt : g.inB (r, c)
    · cases hstate : (g.cellAt (r, c)).state with
      | covered m =>
        rw [clearNeighbors_of_covered g r c sample (by rw [hstate]; rfl)]
      | exposed e nmn =>
        cases e with
        | true => rw [clearNeighbors_of_exploded g r c sample nmn hstate]
        | false =>
          by_cases hlen : ((g.nbrs (r, c)).filter (fun q =>
              (g.cellAt q).state
                = CellState.covered (some Marker.Mine))).length = nmn
          · obtain ⟨B, F, W⟩ := clearNeighbors_pos_spec g r c sample hwf
              halloc hbt nmn hstate hlen
            exact F p hp hexp
          · rw [clearNeighbors_of_mismatch g r c sample false nmn hstate hlen]
    · rw [clearNeighbors_of_oob g r c sample hbt]
  · intro p hp hM hcond
    by_cases hbt : g.inB (r, c)
    · cases hstate : (g.cellAt (r, c)).state with
      | covered m =>
        rw [clearNeighbors_of_covered g r c sample (by rw [hstate]; rfl)]
      | exposed e nmn =>
        cases e with
        | true => rw [clearNeighbors_of_exploded g r c sample nmn hstate]
        | false =>
          by_cases hlen : ((g.nbrs (r, c)).filter (fun q =>
              (g.cellAt q).state
                = CellState.covered (some Marker.Mine))).length = nmn
          · obtain ⟨B, F, W⟩ := clearNeighbors_pos_spec g r c sample hwf
              halloc hbt nmn hstate hlen
            rcases B p hp with h | ⟨hcov, hval, hP⟩
            · exact h
            · exfalso
              rcases hP with ⟨hpn, hpnm⟩ | hmf
              · rcases hcond with hnot | hmarked
                · exact hnot hpn
                · exact hpnm hmarked
              · simp [hmf] at hM
          · rw [clearNeighbors_of_mismatch g r c sample false nmn hstate hlen]
    · rw [clearNeighbors_of_oob g r c sample hbt]

theorem cascade_marked_frame_witness :
    bridge.WF ∧ bridge.minesAllocated = true ∧
    (clearCellFlood bridge 0 0 []).cellAt (0, 1) = bridge.cellAt (0, 1) := by
  have hwf : bridge.WF := by
    show bridge.cells.length = bridge.numRows * bridge.numColumns
    rfl
  exact ⟨hwf, rfl,
    (cascade_marked_frame bridge 0 0 [] hwf rfl).1 (0, 1) (by decide) rfl⟩

/-! ## Claim C6: exposed cells are no-op targets and stay exposed -/

/-- C6: clearing an already-exposed cell is a no-op (a returned value, not an
error) for both engine variants; both variants' clearCell are idempotent; and
no operation — single-cell clear, flood clear, chord clear, mine allocation,
or a successful markCell — ever turns an exposed cell back to covered. -/
theorem clearCell_exposed_noop (g : GameState) (r c : Nat) (sample : List Nat)
    (hwf : g.WF) :
    (isExposedState (g.cellAt (r, c)).state = true →
      clearCell g r c sample = g ∧ clearCellFlood g r c sample = g) ∧
    (clearCell (clearCell g r c sample) r c sample
      = clearCell g r c sample) ∧
    (clearCellFlood (clearCellFlood g r c sample) r c sample
      = clearCellFlood g r c sample) ∧
    (∀ p, g.inB p → isExposedState (g.cellAt p).state = true →
      isExposedState ((clearCell g r c sample).cellAt p).state = true ∧
      isExposedState ((clearCellFlood g r c sample).cellAt p).state = true ∧
      (g.minesAllocated = true →
        isExposedState ((clearNeighbors g r c sample).cellAt p).state
          = true) ∧
      isExposedState ((allocateMines g sample).cellAt p).state = true ∧
      (∀ m g', markCell g r c m = Except.ok g' →
        isExposedState (g'.cellAt p).state = true)) := by
  refine ⟨fun h => ⟨clearCell_of_exposed g r c sample h,
    clearCellFlood_of_exposed g r c sample h⟩, ?_, ?_, ?_⟩
  · -- idempotence of the single-cell clearCell
    by_cases hb : g.inB (r, c)
    · by_cases hexp : isExposedState (g.cellAt (r, c)).state = true
      · rw [clearCell_of_exposed g r c sample hexp]
        exact clearCell_of_exposed g r c sample hexp
      · have hcov : isExposedState (g.cellAt (r, c)).state = false := by
          simpa using hexp
        have heq := clearCell_eq_of_covered g r c sample hb hcov
        by_cases hal : g.minesAllocated = true
        · rw [if_pos hal] at heq
          have hexp' : isExposedState
              ((clearCell g r c sample).cellAt (r, c)).state = true := by
            rw [heq, cellAt_setCellState_self g (r, c) _ hwf hb]
            rfl
          exact clearCell_of_exposed _ r c sample hexp'
        · rw [if_neg hal] at heq
          have hAwf := allocateMines_WF g sample hwf
          have hAb : (allocateMines g sample).inB (r, c) := hb
          have hexp' : isExposedState
              ((clearCell g r c sample).cellAt (r, c)).state = true := by
            rw [heq,
              cellAt_setCellState_self (allocateMines g sample) (r, c) _
                hAwf hAb]
            rfl
          exact clearCell_of_exposed _ r c sample hexp'
    · rw [clearCell_of_oob g r c sample hb]
      exact clearCell_of_oob g r c sample hb
  · -- idempotence of the flood-filling clearCell
    by_cases hb : g.inB (r, c)
    · by_cases hexp : isExposedState (g.cellAt (r, c)).state = true
      · rw [clearCellFlood_of_exposed g r c sample hexp]
        exact clearCellFlood_of_exposed g r c sample hexp
      · have hcov : isExposedState (g.cellAt (r, c)).state = false := by
          simpa using hexp
        by_cases hal : g.minesAllocated = true
        · have htarget := (clearCellFlood_spec g r c sample hwf hal hb
            hcov).2.1 (r, c) hb Reach.base
          have hexp' : isExposedState
              ((clearCellFlood g r c sample).cellAt (r, c)).state = true := by
            rw [htarget]
            rfl
          exact clearCellFlood_of_exposed _ r c sample hexp'
        · have hal' : g.minesAllocated = false := by simpa using hal
          rw [clearCellFlood_fresh_eq g r c sample hb hcov hal']
          have hAwf := allocateMines_WF g sample hwf
          have hAb : (allocateMines g sample).inB (r, c) := hb
          have hAcov : isExposedState
              ((allocateMines g sample).cellAt (r, c)).state = false := by
            rw [cellAt_allocateMines_state]
            exact hcov
          have htarget := (clearCellFlood_spec (allocateMines g sample) r c
            sample hAwf rfl hAb hAcov).2.1 (r, c) hAb Reach.base
          have hexp' : isExposedState
              ((clearCellFlood (allocateMines g sample) r c sample).cellAt
                (r, c)).state = true := by
            rw [htarget]
            rfl
          exact clearCellFlood_of_exposed _ r c sample hexp'
    · rw [clearCellFlood_of_oob g r c sample hb]
      exact clearCellFlood_of_oob g r c sample hb
  · -- exposure is preserved by every operation
    intro p hp hexp
    refine ⟨?_, ?_, ?_, ?_, ?_⟩
    · by_cases hb : g.inB (r, c)
      · by_cases hexpt : isExposedState (g.cellAt (r, c)).state = true
        · rw [clearCell_of_exposed g r c sample hexpt]
          exact hexp
        · have hcovt : isExposedState (g.cellAt (r, c)).state = false := by
            simpa using hexpt
          have heq := clearCell_eq_of_covered g r c sample hb hcovt
          have hne : p ≠ (r, c) := by
            intro h
            rw [h] at hexp
            simp [hexp] at hcovt
          by_cases hal : g.minesAllocated = true
          · rw [if_pos hal] at heq
            rw [heq, cellAt_setCellState_other g (r, c) p _ hb hp hne]
            exact hexp
          · rw [if_neg hal] at heq
            have hAb : (allocateMines g sample).inB (r, c) := hb
            have hpb : (allocateMines g sample).inB p := hp
            rw [heq,
              cellAt_setCellState_other (allocateMines g sample) (r, c) p _
                hAb hpb hne,
              cellAt_allocateMines_state]
            exact hexp
      · rw [clearCell_of_oob g r c sample hb]
        exact hexp
    · by_cases hb : g.inB (r, c)
      · by_cases hexpt : isExposedState (g.cellAt (r, c)).state = true
        · rw [clearCellFlood_of_exposed g r c sample hexpt]
          exact hexp
        · have hcovt : isExposedState (g.cellAt (r, c)).state = false := by
            simpa using hexpt
          by_cases hal : g.minesAllocated = true
          · have hfr := (clearCellFlood_spec g r c sample hwf hal hb
              hcovt).2.2 p hp ?_
            · rw [hfr]
              exact hexp
            · intro hR
              rcases reach_end_covered g (r, c) p hR with rfl | hcov
              · simp [hcovt] at hexp
              · simp [hexp] at hcov
          · have hal' : g.minesAllocated = false := by simpa using hal
            rw [clearCellFlood_fresh_eq g r c sample hb hcovt hal']
            have hAwf := allocateMines_WF g sample hwf
            have hAb : (allocateMines g sample).inB (r, c) := hb
            have hpb : (allocateMines g sample).inB p := hp
            have hAcov : isExposedState
                ((allocateMines g sample).cellAt (r, c)).state = false := by
              rw [cellAt_allocateMines_state]
              exact hcovt
            have hAexp : isExposedState
                ((allocateMines g sample).cellAt p).state = true := by
              rw [cellAt_allocateMines_state]
              exact hexp
            have hfr := (clearCellFlood_spec (allocateMines g sample) r c
              sample hAwf rfl hAb hAcov).2.2 p hpb ?_
            · rw [hfr, cellAt_allocateMines_state]
              exact hexp
            · intro hR
              rcases reach_end_covered (allocateMines g sample) (r, c) p hR
                with rfl | hcov
              · simp [hAcov] at hAexp
              · simp [hAexp] at hcov
      · rw [clearCellFlood_of_oob g r c sample hb]
        exact hexp
    · intro halloc
      by_cases hbt : g.inB (r, c)
      · cases hstate : (g.cellAt (r, c)).state with
        | covered m =>
          rw [clearNeighbors_of_covered g r c sample (by rw [hstate]; rfl)]
          exact hexp
        | exposed e nmn =>
          cases e with
          | true =>
            rw [clearNeighbors_of_exploded g r c sample nmn hstate]
            exact hexp
          | false =>
            by_cases hlen : ((g.nbrs (r, c)).filter (fun q =>
                (g.cellAt q).state
                  = CellState.covered (some Marker.Mine))).length = nmn
            · obtain ⟨B, F, W⟩ := clearNeighbors_pos_spec g r c sample hwf
                halloc hbt nmn hstate hlen
              rw [F p hp hexp]
              exact hexp
            · rw [clearNeighbors_of_mismatch g r c sample false nmn hstate
                hlen]
              exact hexp
      · rw [clearNeighbors_of_oob g r c sample hbt]
        exact hexp
    · rw [cellAt_allocateMines_state]
      exact hexp
    · intro m g' hok
      unfold markCell at hok
      by_cases hb : g.inB (r, c)
      · by_cases hexpt : isExposedState (g.cellAt (r, c)).state = true
        · rw [if_neg (not_not_intro hb), if_pos hexpt] at hok
          exact absurd hok (by simp)
        · have hcovt : isExposedState (g.cellAt (r, c)).state = false := by
            simpa using hexpt
          rw [if_neg (not_not_intro hb), if_neg (by simp [hcovt])] at hok
          injection hok with h
          have hne : p ≠ (r, c) := by
            intro h'
            rw [h'] at hexp
            simp [hexp] at hcovt
          rw [← h, cellAt_setCellState_other g (r, c) p _ hb hp hne]
          exact hexp
      · rw [if_pos hb] at hok
        exact absurd hok (by simp)

theorem clearCell_exposed_noop_witness :
    bridge.WF ∧
    clearCell (clearCell bridge 0 0 []) 0 0 [] = clearCell bridge 0 0 [] := by
  have hwf : bridge.WF := by
    show bridge.cells.length = bridge.numRows * bridge.numColumns
    rfl
  exact ⟨hwf, (clearCell_exposed_noop bridge 0 0 [] hwf).2.1⟩

end Minesweeper
